import Mathlib

/-!
Verification development for the Project Economics & Scheduling Engine:
a shallow embedding in Lean 4 of the pure calculation library
(financial math, estimation methods, decision-tree evaluation and the
resource scheduler), together with theorems settling the specification
claims.  JavaScript numbers are modelled as rationals (reals where the
source uses `Math.sqrt` / fractional `Math.pow`); a thrown `TypeError`
is modelled as `Option.none`; the JS `x || d` default idiom on numbers
is modelled explicitly where it matters (it sends `0` to `d`).
-/

namespace EconTool

/-! ## Financial math (`calculateNPV`, `calculateIRR`) -/

/-- Running sum `Σ cf / (1+rate)^p` starting at exponent `p`, mirroring the
`forEach` accumulation in the source. -/
def npvSum (rate : ℚ) : ℕ → List ℚ → ℚ
  | _, [] => 0
  | p, cf :: rest => cf / (1 + rate) ^ p + npvSum rate (p + 1) rest

/-- `calculateNPV`: `-initialInvestment + Σ cashFlow_t / (1+rate)^(t+1)`. -/
def calculateNPV (cashFlows : List ℚ) (discountRate : ℚ) (initialInvestment : ℚ) : ℚ :=
  -initialInvestment + npvSum discountRate 1 cashFlows

/-- Derivative accumulator of `calculateIRR`'s Newton iteration:
`derivative -= period * cf / (1+rate)^(period+1)` for `period > 0`. -/
def derivSum (rate : ℚ) : ℕ → List ℚ → ℚ
  | _, [] => 0
  | p, cf :: rest =>
      (if 0 < p then -((p : ℚ) * cf / (1 + rate) ^ (p + 1)) else 0) + derivSum rate (p + 1) rest

/-- The Newton-Raphson loop of `calculateIRR`.  Returns the final rate and a
flag that is `true` exactly when the loop stopped because `|npv| < 0.01`
(rather than by a zero derivative or by exhausting the iteration budget);
the source computes the same rate and discards the stopping reason. -/
def irrGo (allCashFlows : List ℚ) : ℕ → ℚ → ℚ × Bool
  | 0, rate => (rate, false)
  | n + 1, rate =>
      let npv := npvSum rate 0 allCashFlows
      let der := derivSum rate 0 allCashFlows
      if |npv| < 1 / 100 then (rate, true)
      else if der = 0 then (rate, false)
      else irrGo allCashFlows n (rate - npv / der)

/-- `calculateIRR`'s iteration on `[-initialInvestment, ...cashFlows]` with the
source's defaults (100 iterations, initial guess 0.1), instrumented with the
convergence flag. -/
def irrRun (cashFlows : List ℚ) (initialInvestment : ℚ) : ℚ × Bool :=
  irrGo (-initialInvestment :: cashFlows) 100 (1 / 10)

/-- `calculateIRR`: the final Newton-Raphson rate, scaled to a percentage. -/
def calculateIRR (cashFlows : List ℚ) (initialInvestment : ℚ) : ℚ :=
  (irrRun cashFlows initialInvestment).1 * 100

/-! ## Monte Carlo simulation (`monteCarloSimulation`) -/

structure RiskFactors where
  technical : ℚ
  market : ℚ
  organizational : ℚ
deriving DecidableEq

/-- The simulated values: iteration `i` draws three pseudo-random numbers
`rand (3*i)`, `rand (3*i+1)`, `rand (3*i+2)` (the three `Math.random()`
calls, in call order) and multiplies the base value by the three
perturbation factors `1 + (u - 0.5) * 2 * factor`. -/
def mcValues (baseValue : ℚ) (riskFactors : RiskFactors) (iterations : ℕ) (rand : ℕ → ℚ) :
    List ℚ :=
  (List.range iterations).map (fun i =>
    let technicalFactor := 1 + (rand (3 * i) - 1 / 2) * 2 * riskFactors.technical
    let marketFactor := 1 + (rand (3 * i + 1) - 1 / 2) * 2 * riskFactors.market
    let organizationalFactor := 1 + (rand (3 * i + 2) - 1 / 2) * 2 * riskFactors.organizational
    baseValue * technicalFactor * marketFactor * organizationalFactor)

/-- JS `results.reduce((sum, val) => sum + val, 0)`. -/
def jsSum (l : List ℚ) : ℚ := l.foldl (· + ·) 0

/-- Mean of the simulated values (`sum / results.length`). -/
def mcMean (baseValue : ℚ) (riskFactors : RiskFactors) (iterations : ℕ) (rand : ℕ → ℚ) : ℚ :=
  jsSum (mcValues baseValue riskFactors iterations rand) / (iterations : ℚ)

/-- Population variance of the simulated values (the quantity under the
square root in `standardDeviation`). -/
def mcVariance (baseValue : ℚ) (riskFactors : RiskFactors) (iterations : ℕ) (rand : ℕ → ℚ) : ℚ :=
  let mean := mcMean baseValue riskFactors iterations rand
  jsSum ((mcValues baseValue riskFactors iterations rand).map (fun v => (v - mean) ^ 2)) /
    (iterations : ℚ)

structure MonteCarloResult where
  mean : ℚ
  standardDeviation : ℝ
  p10 : ℚ
  p50 : ℚ
  p90 : ℚ

/-- `monteCarloSimulation`: sorts the simulated values ascending (the JS
stable numeric sort, modelled by the stable `insertionSort`), reports the
mean, the standard deviation (`Math.sqrt` of the population variance,
modelled with `Real.sqrt`) and the percentile entries at the floor indices
`iterations * {0.1, 0.5, 0.9}`. -/
noncomputable def monteCarloSimulation (baseValue : ℚ) (riskFactors : RiskFactors)
    (iterations : ℕ) (rand : ℕ → ℚ) : MonteCarloResult :=
  let results := List.insertionSort (fun a b => a ≤ b)
    (mcValues baseValue riskFactors iterations rand)
  { mean := mcMean baseValue riskFactors iterations rand
    standardDeviation := Real.sqrt (mcVariance baseValue riskFactors iterations rand : ℝ)
    p10 := results.getD (iterations / 10) 0
    p50 := results.getD (iterations / 2) 0
    p90 := results.getD (iterations * 9 / 10) 0 }

/-! ## Delphi estimation (`calculateDelphiEstimation`)

The consensus measure takes a square root, so this component is modelled
over the reals.  The confidence-weighted average divides by the raw total
confidence with no zero guard; to capture the IEEE outcome of that division
the result carries a `JsNum` (a real, or the `nan` / signed-infinity
produced by dividing by zero). -/

/-- A JavaScript number that may be the result of an unguarded division:
either an ordinary (real) value, or `NaN` / `±Infinity`. -/
inductive JsNum where
  | num (x : ℝ)
  | nan
  | inf
  | ninf

/-- JS division `a / b`: ordinary division for `b ≠ 0`; for `b = 0` it
produces `NaN` when `a = 0` and a signed infinity otherwise. -/
noncomputable def jsDiv (a b : ℝ) : JsNum :=
  if b = 0 then (if a = 0 then .nan else if 0 < a then .inf else .ninf) else .num (a / b)

structure ExpertEstimate where
  expertId : String
  optimistic : ℝ
  mostLikely : ℝ
  pessimistic : ℝ
  confidence : ℝ

/-- PERT three-point estimate of one expert. -/
noncomputable def pertOf (est : ExpertEstimate) : ℝ :=
  (est.optimistic + 4 * est.mostLikely + est.pessimistic) / 6

structure DelphiResult where
  finalEstimate : JsNum
  consensus : ℝ
  pert : ℝ
  confidenceWeightedAverage : JsNum

/-- JS `reduce((sum, x) => sum + x, 0)` over the reals. -/
noncomputable def jsSumR (l : List ℝ) : ℝ := l.foldl (· + ·) 0

/-- `calculateDelphiEstimation`: per-expert PERT estimates, their simple
average (`pert`), the confidence-weighted average (unguarded division by the
total confidence), and the clamped consensus `1 - stdDev/average`. -/
noncomputable def calculateDelphiEstimation (estimates : List ExpertEstimate) : DelphiResult :=
  if estimates.length = 0 then
    { finalEstimate := .num 0, consensus := 0, pert := 0, confidenceWeightedAverage := .num 0 }
  else
    let pertEstimates := estimates.map pertOf
    let average := jsSumR pertEstimates / (pertEstimates.length : ℝ)
    let totalConfidence := jsSumR (estimates.map (fun est => est.confidence))
    let confidenceWeightedAverage :=
      jsDiv (jsSumR (estimates.map (fun est => pertOf est * est.confidence))) totalConfidence
    let stdDev := Real.sqrt
      (jsSumR (pertEstimates.map (fun est => (est - average) ^ 2)) / (pertEstimates.length : ℝ))
    let consensus := if 0 < average then 1 - stdDev / average else 0
    { finalEstimate := confidenceWeightedAverage
      consensus := max 0 (min 1 consensus)
      pert := average
      confidenceWeightedAverage := confidenceWeightedAverage }

/-! ## Regression-by-similarity estimation (`calculateRegressionEstimation`)

`Math.sqrt` and fractional `Math.pow` exponents force a model over the
reals (`Real.sqrt`, `Real.rpow`). -/

structure HistoricalProject where
  linesOfCode : ℝ
  teamSize : ℝ
  complexity : ℝ
  actualCost : ℝ
  actualDuration : ℝ

structure NewProjectShape where
  linesOfCode : ℝ
  teamSize : ℝ
  complexity : ℝ

/-- Pearson correlation with the source's zero-denominator guard
(`denominator === 0 ? 0 : numerator / denominator`). -/
noncomputable def calculateCorrelation (x y : List ℝ) : ℝ :=
  let n := x.length
  let meanX := jsSumR x / (n : ℝ)
  let meanY := jsSumR y / (n : ℝ)
  let sums := (x.zip y).foldl
    (fun acc xy =>
      (acc.1 + (xy.1 - meanX) * (xy.2 - meanY),
       acc.2.1 + (xy.1 - meanX) * (xy.1 - meanX),
       acc.2.2 + (xy.2 - meanY) * (xy.2 - meanY)))
    (0, 0, 0)
  let denominator := Real.sqrt (sums.2.1 * sums.2.2)
  if denominator = 0 then 0 else sums.1 / denominator

/-- `Math.max(...list)` over a non-empty list (`0` for the unreachable empty
case). -/
noncomputable def jsMaxR : List ℝ → ℝ
  | [] => 0
  | h :: t => t.foldl max h

/-- Per-dimension similarity of one historical project to the new project,
averaged over the three dimensions. -/
noncomputable def similarityOf (project : HistoricalProject) (newProject : NewProjectShape) : ℝ :=
  let locSim := if project.linesOfCode = 0 ∧ newProject.linesOfCode = 0 then 1
    else 1 - |project.linesOfCode - newProject.linesOfCode| /
      max project.linesOfCode (max newProject.linesOfCode 1)
  let teamSim := if project.teamSize = 0 ∧ newProject.teamSize = 0 then 1
    else 1 - |project.teamSize - newProject.teamSize| /
      max project.teamSize (max newProject.teamSize 1)
  let complexitySim := 1 - |project.complexity - newProject.complexity| / 5
  (locSim + teamSim + complexitySim) / 3

structure RegressionResult where
  estimatedCost : ℝ
  estimatedDuration : ℝ
  confidence : ℝ
  rSquared : ℝ

/-- `calculateRegressionEstimation`: correlations of each dimension against
cost, closest-project lookup by similarity, elasticity-scaled cost and
duration from that base project, with the source's final clamps. -/
noncomputable def calculateRegressionEstimation (historicalData : List HistoricalProject)
    (newProject : NewProjectShape) : RegressionResult :=
  if historicalData.length < 1 then
    { estimatedCost := 0, estimatedDuration := 0, confidence := 0, rSquared := 0 }
  else
    let x1 := historicalData.map (fun p => p.linesOfCode)
    let x2 := historicalData.map (fun p => p.teamSize)
    let x3 := historicalData.map (fun p => p.complexity)
    let y := historicalData.map (fun p => p.actualCost)
    let correlationLOC := calculateCorrelation x1 y
    let correlationTeam := calculateCorrelation x2 y
    let correlationComplexity := calculateCorrelation x3 y
    let similarities := historicalData.map (fun p => similarityOf p newProject)
    let maxSimilarityIndex := similarities.findIdx (fun s => decide (s = jsMaxR similarities))
    let baseProject := historicalData.getD maxSimilarityIndex ⟨0, 0, 0, 0, 0⟩
    let locRatio := if baseProject.linesOfCode = 0 then 1
      else newProject.linesOfCode / baseProject.linesOfCode
    let teamRatio := if baseProject.teamSize = 0 then 1
      else newProject.teamSize / baseProject.teamSize
    let complexityRatio := if baseProject.complexity = 0 then 1
      else newProject.complexity / baseProject.complexity
    let estimatedCost := baseProject.actualCost * locRatio ^ ((7 : ℝ) / 10) *
      teamRatio ^ ((3 : ℝ) / 10) * complexityRatio ^ ((2 : ℝ) / 10)
    let estimatedDuration := baseProject.actualDuration * locRatio ^ ((5 : ℝ) / 10) *
      complexityRatio ^ ((3 : ℝ) / 10)
    let correlations := [|correlationLOC|, |correlationTeam|, |correlationComplexity|]
    let rSquared := if 0 < correlations.length then jsMaxR correlations else 0
    { estimatedCost := max 0 estimatedCost
      estimatedDuration := max 0 estimatedDuration
      confidence := if 0 < similarities.length then jsMaxR similarities else 0
      rSquared := max 0 (min 1 rSquared) }

/-! ## Decision-tree analysis (`analyzeDecisionTree`)

The best-path walk can throw a `TypeError` in the source (a decision node
with exactly one child reads `expectedValue` of an `undefined` second
option); a thrown exception is modelled as `Option.none`. -/

inductive NodeType where
  | decision
  | chance
  | outcome
deriving DecidableEq

inductive DecisionNode where
  | mk (id : String) (name : String) (ntype : NodeType) (probability : Option ℚ)
      (cost : Option ℚ) (value : Option ℚ) (children : List DecisionNode)

def DecisionNode.id : DecisionNode → String
  | .mk i _ _ _ _ _ _ => i

def DecisionNode.name : DecisionNode → String
  | .mk _ n _ _ _ _ _ => n

def DecisionNode.ntype : DecisionNode → NodeType
  | .mk _ _ t _ _ _ _ => t

def DecisionNode.probability : DecisionNode → Option ℚ
  | .mk _ _ _ p _ _ _ => p

def DecisionNode.cost : DecisionNode → Option ℚ
  | .mk _ _ _ _ c _ _ => c

def DecisionNode.value : DecisionNode → Option ℚ
  | .mk _ _ _ _ _ v _ => v

def DecisionNode.children : DecisionNode → List DecisionNode
  | .mk _ _ _ _ _ _ cs => cs

/-- `Math.max(...list)` over rationals (non-empty in every use). -/
def jsMax : List ℚ → ℚ
  | [] => 0
  | h :: t => t.foldl max h

/-- `calculateExpectedValue`: net value at outcomes, maximum over decision
children, probability-weighted sum over chance children. -/
def calcEV : DecisionNode → ℚ
  | .mk _ _ ntype _ cost value children =>
    if ntype = .outcome then value.getD 0 - cost.getD 0
    else if children.isEmpty then 0
    else if ntype = .decision then
      jsMax (children.attach.map (fun c => calcEV c.1))
    else if ntype = .chance then
      children.attach.foldl (fun s c => s + c.1.probability.getD 0 * calcEV c.1) 0
    else 0
termination_by n => sizeOf n
decreasing_by
  · have h1 := List.sizeOf_lt_of_mem c.2
    simp only [DecisionNode.mk.sizeOf_spec]
    omega
  · have h1 := List.sizeOf_lt_of_mem c.2
    simp only [DecisionNode.mk.sizeOf_spec]
    omega

/-- JS `s.toLowerCase().includes(sub)` for a non-empty `sub`. -/
def jsIncludes (s sub : String) : Bool := decide (2 ≤ (s.toLower.splitOn sub).length)

structure RiskMetrics where
  successProbability : ℚ
  failureProbability : ℚ
  roi : ℚ
  avgCost : ℚ
  worstCase : ℚ
  riskLevel : String

/-- `calculateRiskMetrics`: success/failure outcome lookup by name substring,
average cost and value, ROI with the zero-cost guard, worst case, and the
failure-probability risk band. -/
def calcRiskMetrics (node : DecisionNode) : Option RiskMetrics :=
  let successOutcome := node.children.find? (fun child => jsIncludes child.name "success")
  let failureOutcome := node.children.find? (fun child => jsIncludes child.name "failure")
  match successOutcome, failureOutcome with
  | some s, some f =>
    let successProbability := s.probability.getD 0
    let failureProbability := f.probability.getD 0
    let avgCost := successProbability * s.cost.getD 0 + failureProbability * f.cost.getD 0
    let avgValue := successProbability * s.value.getD 0 + failureProbability * f.value.getD 0
    let roi := if 0 < avgCost then (avgValue - avgCost) / avgCost * 100 else 0
    let worstCase := min (s.value.getD 0 - s.cost.getD 0) (f.value.getD 0 - f.cost.getD 0)
    some { successProbability := successProbability
           failureProbability := failureProbability
           roi := roi
           avgCost := avgCost
           worstCase := worstCase
           riskLevel := if (3 : ℚ) / 10 < failureProbability then "High"
             else if (3 : ℚ) / 20 < failureProbability then "Medium" else "Low" }
  | _, _ => none

structure RiskAnalysis where
  bestOption : String
  riskLevel : String
  reasoning : List String

structure PathResult where
  path : List String
  riskAnalysis : Option RiskAnalysis

structure ChildAnalysis where
  name : String
  expectedValue : ℚ
  riskMetrics : Option RiskMetrics
  cpath : PathResult

/-- Decimal rendering of `toFixed(0)` (round to an integer). -/
def toFixed0 (q : ℚ) : String := toString (round q : ℤ)

/-- Decimal rendering of `toFixed(1)` (one digit after the point). -/
def toFixed1 (q : ℚ) : String :=
  let n : ℤ := round (q * 10)
  toString (n / 10) ++ "." ++ toString (n % 10).natAbs

/-- The tie-break risk score: `30 × successProbability + riskLevelBonus +
min(ROI/10, 20) + max(0, worstCase/10000)`. -/
def riskScore (rm : RiskMetrics) : ℚ :=
  rm.successProbability * 30 +
    (if rm.riskLevel = "Low" then 25 else if rm.riskLevel = "Medium" then 15 else 5) +
    min (rm.roi / 10) 20 + max 0 (rm.worstCase / 10000)

/-- The decision-node selection between the top two options sorted by
expected value: risk-adjusted tie-break when they are within 5% of their
average, otherwise the higher expected value wins outright. -/
def decideBest (top second : ChildAnalysis) : PathResult :=
  let valueDifference := |top.expectedValue - second.expectedValue|
  let averageValue := (top.expectedValue + second.expectedValue) / 2
  let percentageDifference := if 0 < averageValue then valueDifference / averageValue * 100 else 0
  match top.riskMetrics, second.riskMetrics with
  | some rmTop, some rmSecond =>
    if percentageDifference < 5 then
      let reason0 := "Expected values are very close (" ++ toFixed0 top.expectedValue ++
        " vs " ++ toFixed0 second.expectedValue ++ ")"
      if riskScore rmTop < riskScore rmSecond then
        let rs := [reason0,
          second.name ++ " offers better risk-adjusted returns",
          "Higher success probability: " ++ toFixed0 (rmSecond.successProbability * 100) ++
            "% vs " ++ toFixed0 (rmTop.successProbability * 100) ++ "%"]
        let rs := rs ++ (if rmTop.roi * (3 / 2) < rmSecond.roi then
          ["Significantly better ROI: " ++ toFixed1 rmSecond.roi ++ "% vs " ++
            toFixed1 rmTop.roi ++ "%"] else [])
        let rs := rs ++ (if rmSecond.riskLevel ≠ rmTop.riskLevel then
          ["Lower risk profile: " ++ rmSecond.riskLevel ++ " vs " ++ rmTop.riskLevel] else [])
        { path := second.cpath.path
          riskAnalysis := some { bestOption := second.name, riskLevel := rmSecond.riskLevel
                                 reasoning := rs } }
      else
        { path := top.cpath.path
          riskAnalysis := some { bestOption := top.name, riskLevel := rmTop.riskLevel
                                 reasoning := [reason0,
                                   top.name ++ " provides the best balance of return and risk"] } }
    else
      { path := top.cpath.path
        riskAnalysis := some { bestOption := top.name, riskLevel := rmTop.riskLevel
                               reasoning := ["Clear expected value advantage: " ++
                                 toFixed0 top.expectedValue] } }
  | _, _ =>
    { path := top.cpath.path
      riskAnalysis := some { bestOption := top.name
                             riskLevel := (top.riskMetrics.map RiskMetrics.riskLevel).getD "Unknown"
                             reasoning := ["Clear expected value advantage: " ++
                               toFixed0 top.expectedValue] } }

/-- JS `children.reduce(...)` keeping the child with the strictly greatest
`probability || 0`, first-occurrence biased. -/
def jsReduceMaxProb : DecisionNode → List DecisionNode → DecisionNode
  | best, [] => best
  | best, c :: rest =>
    jsReduceMaxProb (if best.probability.getD 0 < c.probability.getD 0 then c else best) rest

/-- `findBestPathWithRiskAnalysis`, indexed by a recursion-depth fuel so that
the definition is structural (and therefore evaluates inside the kernel).
`none` is fuel exhaustion — proved unreachable for the fuel used by
`findBestPath` below; `some none` models the `TypeError` the source throws
at a decision node with exactly one child (reading `expectedValue` of the
`undefined` second option).  The JS stable sort by descending expected
value is modelled by the stable `insertionSort`. -/
def findBestPathFuel : ℕ → DecisionNode → List String → Option (Option PathResult)
  | 0, _, _ => none
  | fuel + 1, .mk _ nodeName ntype _ _ _ children, currentPath =>
    let newPath := currentPath ++ [nodeName]
    if ntype = .outcome ∨ children.isEmpty then
      some (some { path := newPath, riskAnalysis := none })
    else if ntype = .decision then
      match children.foldr
        (fun c acc =>
          match findBestPathFuel fuel c newPath, acc with
          | some (some p), some (some l) =>
            some (some ({ name := c.name, expectedValue := calcEV c,
                          riskMetrics := calcRiskMetrics c, cpath := p } :: l))
          | none, _ => none
          | _, none => none
          | _, _ => some none)
        (some (some [])) with
      | none => none
      | some none => some none
      | some (some childAnalysis) =>
        match List.insertionSort (fun a b => b.expectedValue ≤ a.expectedValue) childAnalysis with
        | top :: second :: _ => some (some (decideBest top second))
        | _ => some none
    else
      match children with
      | [] => some (some { path := newPath, riskAnalysis := none })
      | c :: rest => findBestPathFuel fuel (jsReduceMaxProb c rest) newPath

mutual

/-- Depth of a decision tree (a bound for the best-path recursion depth). -/
def nodeDepth : DecisionNode → ℕ
  | .mk _ _ _ _ _ _ children => 1 + nodeDepthList children

/-- Maximum depth over a list of children. -/
def nodeDepthList : List DecisionNode → ℕ
  | [] => 0
  | c :: rest => max (nodeDepth c) (nodeDepthList rest)

end

/-- The best-path walk itself; the fuel `nodeDepth node` dominates the
recursion depth, so the `getD` never sees the fuel-exhaustion `none`
(`findBestPathFuel_adequate` below). -/
def findBestPath (node : DecisionNode) (currentPath : List String) : Option PathResult :=
  (findBestPathFuel (nodeDepth node) node currentPath).getD none

structure DecisionAnalysisResult where
  expectedValue : ℚ
  bestPath : List String
  sensitivityAnalysis : List (String × ℚ)
  riskAnalysis : Option RiskAnalysis

/-- `analyzeDecisionTree`: expected value of the root plus the best-path
walk; `none` when that walk throws. -/
def analyzeDecisionTree (rootNode : DecisionNode) : Option DecisionAnalysisResult :=
  (findBestPath rootNode []).map (fun analysis =>
    { expectedValue := calcEV rootNode
      bestPath := analysis.path
      sensitivityAnalysis := []
      riskAnalysis := analysis.riskAnalysis })

/-! ## Resource-constrained scheduler (`optimizeResourceAllocation`)

Utilization and assignment records (`Record<string, ...>`) are modelled as
association lists in JS object insertion order, with overwrite-in-place on
an existing key. -/

structure Resource where
  id : String
  name : String
  rtype : String
  maxCapacity : ℚ
  hourlyRate : ℚ
  availability : List ℚ
deriving DecidableEq

structure ResourceReq where
  resourceId : String
  amount : ℚ
deriving DecidableEq

structure Task where
  id : String
  name : String
  duration : ℕ
  requiredResources : List ResourceReq
  prerequisites : List String
  priority : ℚ
deriving DecidableEq

structure ScheduleEntry where
  taskId : String
  startPeriod : ℕ
  endPeriod : ℕ
  assignedResources : List (String × ℚ)
deriving DecidableEq

structure ScheduleResult where
  schedule : List ScheduleEntry
  resourceUtilization : List (String × List ℚ)
  totalCost : ℚ
  projectDuration : ℕ
  conflicts : List String
deriving DecidableEq

/-- JS object write `m[k] = v`: overwrite in place, else append. -/
def upsert {α : Type} : List (String × α) → String → α → List (String × α)
  | [], k, v => [(k, v)]
  | (k1, v1) :: rest, k, v =>
    if k1 = k then (k, v) :: rest else (k1, v1) :: upsert rest k v

/-- JS object read `m[k]` (`none` for a missing key). -/
def lookupA {α : Type} (m : List (String × α)) (k : String) : Option α :=
  (m.find? (fun kv => kv.1 == k)).map (fun kv => kv.2)

/-- `resourceUtilization[rid][p] || 0`. -/
def utilAt (util : List (String × List ℚ)) (rid : String) (p : ℕ) : ℚ :=
  ((lookupA util rid).getD []).getD p 0

/-- The per-period capacity multiplier the source actually applies:
`availability[p % availability.length] || 1`, so an out-of-range read (empty
availability array) **and a stored `0` multiplier** both fall back to `1`. -/
def effAvail (r : Resource) (p : ℕ) : ℚ :=
  if r.availability.length = 0 then 1
  else
    let v := r.availability.getD (p % r.availability.length) 0
    if v = 0 then 1 else v

/-- The requirement loop of `scheduleTask` at one candidate start: look up
each required resource, check every period of the task's duration against
committed utilization, and build the assignment record; any failure rejects
this start. -/
def tryStartGo (resources : List Resource) (util : List (String × List ℚ)) (start dur : ℕ) :
    List ResourceReq → List (String × ℚ) → Option (List (String × ℚ))
  | [], assigned => some assigned
  | req :: rest, assigned =>
    match resources.find? (fun r => r.id == req.resourceId) with
    | none => none
    | some r =>
      if (List.range' start dur).all
          (fun p => decide (utilAt util r.id p + req.amount ≤ r.maxCapacity * effAvail r p)) then
        tryStartGo resources util start dur rest (upsert assigned req.resourceId req.amount)
      else none

def tryStart (task : Task) (resources : List Resource) (util : List (String × List ℚ))
    (start : ℕ) : Option (List (String × ℚ)) :=
  tryStartGo resources util start task.duration task.requiredResources []

/-- The forward scan of `scheduleTask`, one period at a time, over `steps`
remaining candidate start periods. -/
def findStart (task : Task) (resources : List Resource) (util : List (String × List ℚ)) :
    ℕ → ℕ → Option (ℕ × List (String × ℚ))
  | _, 0 => none
  | start, steps + 1 =>
    match tryStart task resources util start with
    | some assigned => some (start, assigned)
    | none => findStart task resources util (start + 1) steps

/-- `scheduleTask`: scan starts `earliestStart .. maxPeriods - duration`;
`none` models the `startPeriod = -1` infeasibility result (whose conflict
list is discarded by the caller, as in the source). -/
def scheduleTask (task : Task) (resources : List Resource) (util : List (String × List ℚ))
    (earliestStart maxPeriods : ℕ) : Option (ℕ × List (String × ℚ)) :=
  if earliestStart + task.duration ≤ maxPeriods then
    findStart task resources util earliestStart (maxPeriods - task.duration - earliestStart + 1)
  else none

/-- `resourceUtilization[rid][p] += amount`, guarded exactly like the source
(key present and index in range). -/
def commitOne (util : List (String × List ℚ)) (p : ℕ) (rid : String) (amount : ℚ) :
    List (String × List ℚ) :=
  match lookupA util rid with
  | none => util
  | some arr =>
    if p < arr.length then upsert util rid (arr.set p (arr.getD p 0 + amount)) else util

/-- The utilization-commit loop after a successful placement. -/
def commitTask (util : List (String × List ℚ)) (assigned : List (String × ℚ))
    (start dur : ℕ) : List (String × List ℚ) :=
  (List.range' start dur).foldl
    (fun u p => assigned.foldl (fun u2 kv => commitOne u2 p kv.1 kv.2) u) util

/-- `getEarliestStartTime`: max end period over scheduled prerequisites. -/
def getEarliestStartTime (task : Task) (schedule : List ScheduleEntry) : ℕ :=
  task.prerequisites.foldl
    (fun acc prereqId =>
      match schedule.find? (fun s => s.taskId == prereqId) with
      | some s => max acc s.endPeriod
      | none => acc)
    0

structure SchedState where
  schedule : List ScheduleEntry
  util : List (String × List ℚ)
  conflicts : List String

/-- One iteration of the scheduling loop: place the task or record the
`Cannot schedule` conflict (the per-start conflicts returned by
`scheduleTask` are always empty in the source and are dropped). -/
def schedStep (resources : List Resource) (maxPeriods : ℕ) (st : SchedState) (task : Task) :
    SchedState :=
  let earliestStart := getEarliestStartTime task st.schedule
  match scheduleTask task resources st.util earliestStart maxPeriods with
  | none =>
    { st with conflicts := st.conflicts ++
        ["Cannot schedule task " ++ task.name ++ " - insufficient resources"] }
  | some (startPeriod, assignedResources) =>
    { schedule := st.schedule ++
        [{ taskId := task.id, startPeriod := startPeriod,
           endPeriod := startPeriod + task.duration, assignedResources := assignedResources }]
      util := commitTask st.util assignedResources startPeriod task.duration
      conflicts := st.conflicts }

/-- Utilization tracking initialised to a zero array per resource. -/
def initUtil (resources : List Resource) (maxPeriods : ℕ) : List (String × List ℚ) :=
  resources.foldl (fun m r => upsert m r.id (List.replicate maxPeriods 0)) []

structure TopoState where
  visited : List String
  result : List Task
  ok : Bool

/-- The DFS `visit` of `topologicalSort`: an id already on the `visiting`
stack or already visited is skipped; an id with no matching task is a
no-op; otherwise prerequisites are visited first and the task is appended.
The fuel argument bounds the recursion depth; `ok := false` marks fuel
exhaustion (proved unreachable for the fuel used by `topoRun`). -/
def visitFuel (tasks : List Task) : ℕ → List String → TopoState → String → TopoState
  | 0, _, st, _ => { st with ok := false }
  | fuel + 1, visiting, st, taskId =>
    if taskId ∈ visiting then st
    else if taskId ∈ st.visited then st
    else
      match tasks.find? (fun t => t.id == taskId) with
      | none => st
      | some task =>
        let st1 := task.prerequisites.foldl (visitFuel tasks fuel (taskId :: visiting)) st
        { st1 with visited := taskId :: st1.visited, result := st1.result ++ [task] }

/-- The distinct task ids, bounding the depth of the DFS stack. -/
def taskIdUniverse (tasks : List Task) : List String := (tasks.map (fun t => t.id)).dedup

def topoRun (tasks : List Task) : TopoState :=
  tasks.foldl
    (fun st t => visitFuel tasks ((taskIdUniverse tasks).length + 1) [] st t.id)
    { visited := [], result := [], ok := true }

def topologicalSort (tasks : List Task) : List Task := (topoRun tasks).result

/-- JS `v || dflt` on an optional number (`0` is falsy). -/
def jsOrNat (v : Option ℕ) (dflt : ℕ) : ℕ :=
  match v with
  | none => dflt
  | some d => if d = 0 then dflt else d

/-- The total-cost aggregation of `optimizeResourceAllocation`:
`Σ amount × hourlyRate × (endPeriod - startPeriod)` over the schedule. -/
def totalCostOf (resources : List Resource) (schedule : List ScheduleEntry) : ℚ :=
  schedule.foldl
    (fun acc item =>
      item.assignedResources.foldl
        (fun acc2 kv =>
          match resources.find? (fun r => r.id == kv.1) with
          | some r => acc2 + kv.2 * r.hourlyRate * ((item.endPeriod - item.startPeriod : ℕ) : ℚ)
          | none => acc2)
        acc)
    0

/-- The project-duration aggregation (max end period). -/
def projectDurationOf (schedule : List ScheduleEntry) : ℕ :=
  schedule.foldl (fun acc item => max acc item.endPeriod) 0

/-- `optimizeResourceAllocation`: topological order, greedy placement with
utilization commits, then total cost and project duration. -/
def optimizeResourceAllocation (tasks : List Task) (resources : List Resource)
    (projectDeadline : Option ℕ) : ScheduleResult :=
  let sortedTasks := topologicalSort tasks
  let maxPeriods := jsOrNat projectDeadline 100
  let st := sortedTasks.foldl (schedStep resources maxPeriods)
    { schedule := [], util := initUtil resources maxPeriods, conflicts := [] }
  { schedule := st.schedule
    resourceUtilization := st.util
    totalCost := totalCostOf resources st.schedule
    projectDuration := projectDurationOf st.schedule
    conflicts := st.conflicts }

/-- `schedStep` reads only the scheduling-relevant fields of a resource;
`stripRate` zeroes the hourly rate, letting the scheduling phase be
evaluated independently of the (cost-only) rate. -/
def stripRate (r : Resource) : Resource :=
  { r with hourlyRate := 0 }

/-! ## Scenario analysis (`performScenarioAnalysis`) -/

structure ScenarioParameters where
  resourceMultiplier : ℚ
  budgetConstraint : Option ℚ
  timeConstraint : Option ℕ
  qualityRequirement : Option ℚ
deriving DecidableEq

structure ScenarioMetrics where
  efficiency : ℚ
  riskLevel : ℚ
deriving DecidableEq

structure ScenarioOutcome where
  scenario : ScenarioParameters
  result : ScheduleResult
  metrics : ScenarioMetrics
deriving DecidableEq

/-- `performScenarioAnalysis`: re-run the scheduler per scenario with
`maxCapacity` scaled by the multiplier and the scenario's time constraint
as deadline, then the efficiency and risk-level metrics. -/
def performScenarioAnalysis (baseTasks : List Task) (baseResources : List Resource)
    (scenarios : List ScenarioParameters) : List ScenarioOutcome :=
  scenarios.map (fun scenario =>
    let adjustedResources := baseResources.map
      (fun resource => { resource with maxCapacity := resource.maxCapacity *
        scenario.resourceMultiplier })
    let result := optimizeResourceAllocation baseTasks adjustedResources scenario.timeConstraint
    let efficiency := if 0 < result.totalCost then
      ((result.projectDuration : ℚ) / result.totalCost) * 1000 else 0
    let riskLevel := (result.conflicts.length : ℚ) / (max 1 baseTasks.length : ℕ)
    { scenario := scenario, result := result
      metrics := { efficiency := efficiency, riskLevel := riskLevel } })

/-- The guarantee recorded for an accepted assignment entry `(rid, a)`: the
required resource exists, the capacity check held over the whole task span
against the utilization at check time, and the entry stems from one of the
task's requirements. -/
def reqBound (resources : List Resource) (util : List (String × List ℚ)) (start dur : ℕ)
    (R : List ResourceReq) (rid : String) (a : ℚ) : Prop :=
  ∃ r, resources.find? (fun x => x.id == rid) = some r ∧
    (∀ p ∈ List.range' start dur, utilAt util rid p + a ≤ r.maxCapacity * effAvail r p) ∧
    ∃ req ∈ R, req.resourceId = rid ∧ req.amount = a

/-- DFS bookkeeping invariant: every visited id has a found task that has
already been appended to the output order. -/
def topoJ (tasks : List Task) (st : TopoState) : Prop :=
  ∀ x ∈ st.visited, ∃ tk, tasks.find? (fun t => t.id == x) = some tk ∧ tk ∈ st.result

/-! ## Concrete instances used by counterexamples and witnesses -/

/-- An outcome child for the single-child decision node of the C1 analysis. -/
def c1Outcome : DecisionNode :=
  .mk "o1" "Launch outcome" .outcome (some 1) (some 200) (some 500) []

/-- A well-formed decision node with exactly one child. -/
def c1Root : DecisionNode := .mk "d1" "Launch" .decision none none none [c1Outcome]

/-- A resource whose availability multiplier is `0` in every period. -/
def c2Resource : Resource :=
  { id := "r", name := "Machine", rtype := "equipment", maxCapacity := 1, hourlyRate := 10,
    availability := [0] }

/-- A task requesting one unit of `c2Resource` for one period. -/
def c2Task : Task :=
  { id := "t", name := "Job", duration := 1, requiredResources := [{ resourceId := "r", amount := 1 }],
    prerequisites := [], priority := 1 }

/-- The single full-availability, capacity-1 resource of the C3 instance. -/
def c3Resource (rate : ℚ) : Resource :=
  { id := "r", name := "Engineer", rtype := "human", maxCapacity := 1, hourlyRate := rate,
    availability := [1] }

def c3TaskA : Task :=
  { id := "A", name := "Task A", duration := 2,
    requiredResources := [{ resourceId := "r", amount := 1 }], prerequisites := [], priority := 1 }

def c3TaskB : Task :=
  { id := "B", name := "Task B", duration := 2,
    requiredResources := [{ resourceId := "r", amount := 1 }], prerequisites := ["A"],
    priority := 1 }

/-- A resource with `maxCapacity = 0`. -/
def c4Resource : Resource :=
  { id := "r", name := "Server", rtype := "equipment", maxCapacity := 0, hourlyRate := 10,
    availability := [1] }

/-- A zero-duration task demanding one unit of the capacity-0 resource. -/
def c4ZeroDurTask : Task :=
  { id := "t", name := "Setup", duration := 0,
    requiredResources := [{ resourceId := "r", amount := 1 }], prerequisites := [], priority := 1 }

/-- A one-period task demanding one unit of the capacity-0 resource. -/
def c4Task : Task :=
  { id := "t", name := "Setup", duration := 1,
    requiredResources := [{ resourceId := "r", amount := 1 }], prerequisites := [], priority := 1 }

/-- A single historical project for the C9 regression analysis. -/
def c9Hist : HistoricalProject :=
  { linesOfCode := 1000, teamSize := 5, complexity := 3, actualCost := 100000,
    actualDuration := 10 }

/-- A new project identical to `c9Hist` in all three dimensions. -/
def c9New : NewProjectShape := { linesOfCode := 1000, teamSize := 5, complexity := 3 }

/-- A zero-confidence expert estimate for the C10 witness. -/
def c10Estimate : ExpertEstimate :=
  { expertId := "e1", optimistic := 10, mostLikely := 20, pessimistic := 30, confidence := 0 }

/-! ## Association-list lemmas -/

theorem lookupA_upsert {α : Type} (m : List (String × α)) (k : String) (v : α) (k1 : String) :
    lookupA (upsert m k v) k1 = if k1 = k then some v else lookupA m k1 := by
  induction m with
  | nil =>
    simp only [upsert, lookupA]
    by_cases h : k1 = k
    · subst h
      rw [List.find?_cons_of_pos _ (by simp)]
      simp
    · rw [List.find?_cons_of_neg _ (by simp; exact fun e => h e.symm)]
      simp [h]
  | cons kv rest ih =>
    by_cases hk : kv.1 = k
    · simp only [upsert, if_pos hk, lookupA]
      by_cases h : k1 = k
      · subst h
        rw [List.find?_cons_of_pos _ (by simp)]
        simp
      · rw [List.find?_cons_of_neg _ (by simp; exact fun e => h e.symm),
          List.find?_cons_of_neg _ (by simp; exact fun e => h (e.symm.trans hk))]
        simp [h]
    · simp only [upsert, if_neg hk, lookupA]
      by_cases h2 : kv.1 = k1
      · rw [List.find?_cons_of_pos _ (by simp [h2]),
          List.find?_cons_of_pos _ (by simp [h2])]
        have hne : ¬ k1 = k := fun e => hk (h2.trans e)
        simp [hne]
      · rw [List.find?_cons_of_neg _ (by simp [h2]),
          List.find?_cons_of_neg _ (by simp [h2])]
        have h3 := ih
        simp only [lookupA] at h3
        exact h3

theorem lookupA_cons {α : Type} (k : String) (v : α) (m : List (String × α)) (k1 : String) :
    lookupA ((k, v) :: m) k1 = if k1 = k then some v else lookupA m k1 := by
  by_cases h : k1 = k
  · subst h
    simp only [lookupA]
    rw [List.find?_cons_of_pos _ (by simp)]
    simp
  · simp only [lookupA]
    rw [List.find?_cons_of_neg _ (by simp; exact fun e => h e.symm)]
    simp [h, lookupA]

theorem foldl_preserves {α β : Type} (f : β → α → β) (P : β → Prop)
    (hf : ∀ b a, P b → P (f b a)) : ∀ (l : List α) (b : β), P b → P (l.foldl f b) := by
  intro l
  induction l with
  | nil => intro b hb; exact hb
  | cons a t ih => intro b hb; exact ih _ (hf _ _ hb)

theorem mem_upsert {α : Type} :
    ∀ (m : List (String × α)) (k : String) (v : α) (kv : String × α),
      kv ∈ upsert m k v → kv ∈ m ∨ kv = (k, v) := by
  intro m
  induction m with
  | nil =>
    intro k v kv h
    simp [upsert] at h
    right
    simp [h]
  | cons hd rest ih =>
    intro k v kv h
    simp only [upsert] at h
    by_cases hk : hd.1 = k
    · rw [if_pos hk] at h
      rcases List.mem_cons.1 h with h1 | h1
      · right; simp [h1]
      · left; exact List.mem_cons_of_mem _ h1
    · rw [if_neg hk] at h
      rcases List.mem_cons.1 h with h1 | h1
      · left; simp [h1]
      · rcases ih k v kv h1 with h2 | h2
        · left; exact List.mem_cons_of_mem _ h2
        · right; exact h2

theorem replicate_getD {α : Type} (n p : ℕ) (a : α) : (List.replicate n a).getD p a = a := by
  induction n generalizing p with
  | zero => simp
  | succ n ih =>
    cases p with
    | zero => simp
    | succ p => simp only [List.replicate_succ, List.getD_cons_succ]; exact ih p

theorem utilAt_initUtil (resources : List Resource) (m : ℕ) (rid : String) (p : ℕ) :
    utilAt (initUtil resources m) rid p = 0 := by
  have hvals : ∀ kv ∈ initUtil resources m, kv.2 = List.replicate m (0 : ℚ) := by
    have := foldl_preserves (fun u (r : Resource) => upsert u r.id (List.replicate m (0 : ℚ)))
      (fun u => ∀ kv ∈ u, kv.2 = List.replicate m (0 : ℚ))
      (by
        intro u r hu kv hkv
        rcases mem_upsert _ _ _ _ hkv with h | h
        · exact hu _ h
        · simp [h])
      resources []
    intro kv hkv
    exact this (by simp) kv (by simpa [initUtil] using hkv)
  unfold utilAt
  cases hl : lookupA (initUtil resources m) rid with
  | none => simp
  | some arr =>
    have harr : arr = List.replicate m 0 := by
      unfold lookupA at hl
      cases hf : (initUtil resources m).find? (fun kv => kv.1 == rid) with
      | none => simp [hf] at hl
      | some kv =>
        simp [hf] at hl
        have := hvals kv (List.mem_of_find?_eq_some hf)
        rw [← hl, this]
    subst harr
    simp only [Option.getD_some]
    exact replicate_getD m p (0 : ℚ)

theorem utilAt_commitOne_ne (util : List (String × List ℚ)) (p : ℕ) (rid : String) (a : ℚ)
    (rid1 : String) (p1 : ℕ) (h : ¬(rid1 = rid ∧ p1 = p)) :
    utilAt (commitOne util p rid a) rid1 p1 = utilAt util rid1 p1 := by
  unfold commitOne
  cases hl : lookupA util rid with
  | none => rfl
  | some arr =>
    by_cases hp : p < arr.length
    · simp only [if_pos hp]
      unfold utilAt
      rw [lookupA_upsert]
      by_cases hr : rid1 = rid
      · have hpp : p1 ≠ p := fun e => h ⟨hr, e⟩
        rw [if_pos hr, hr, hl]
        simp only [Option.getD_some]
        simp only [List.getD_eq_getElem?_getD]
        rw [List.getElem?_set_ne (fun e => hpp e.symm)]
      · rw [if_neg hr]
    · simp [hp]

theorem utilAt_commitOne_self (util : List (String × List ℚ)) (p : ℕ) (rid : String) (a : ℚ) :
    utilAt (commitOne util p rid a) rid p = utilAt util rid p + a ∨
    utilAt (commitOne util p rid a) rid p = utilAt util rid p := by
  unfold commitOne
  cases hl : lookupA util rid with
  | none => right; rfl
  | some arr =>
    by_cases hp : p < arr.length
    · left
      simp only [if_pos hp]
      unfold utilAt
      rw [lookupA_upsert, if_pos rfl, hl]
      simp only [Option.getD_some, List.getD_eq_getElem?_getD]
      rw [List.getElem?_set_self hp]
      simp
    · right
      simp [hp]

theorem lookupA_eq_none {α : Type} (m : List (String × α)) (k : String)
    (h : ∀ kv ∈ m, kv.1 ≠ k) : lookupA m k = none := by
  unfold lookupA
  rw [List.find?_eq_none.2 (by intro kv hkv; simpa using h kv hkv)]
  rfl

theorem utilAt_inner_ne (assigned : List (String × ℚ)) (p : ℕ) (rid1 : String) (p1 : ℕ)
    (h : p1 ≠ p) :
    ∀ u, utilAt (assigned.foldl (fun u2 kv => commitOne u2 p kv.1 kv.2) u) rid1 p1 =
      utilAt u rid1 p1 := by
  induction assigned with
  | nil => intro u; rfl
  | cons kv rest ih =>
    intro u
    simp only [List.foldl_cons]
    rw [ih, utilAt_commitOne_ne _ _ _ _ _ _ (fun e => h e.2)]

theorem utilAt_inner_notkey (assigned : List (String × ℚ)) (p : ℕ) (rid1 : String) (p1 : ℕ)
    (h : lookupA assigned rid1 = none) :
    ∀ u, utilAt (assigned.foldl (fun u2 kv => commitOne u2 p kv.1 kv.2) u) rid1 p1 =
      utilAt u rid1 p1 := by
  induction assigned with
  | nil => intro u; rfl
  | cons kv rest ih =>
    intro u
    have hk : ¬ rid1 = kv.1 := by
      intro e
      rw [show (kv :: rest : List (String × ℚ)) = (kv.1, kv.2) :: rest by simp,
        lookupA_cons, if_pos e] at h
      exact Option.noConfusion h
    have hr : lookupA rest rid1 = none := by
      rw [show (kv :: rest : List (String × ℚ)) = (kv.1, kv.2) :: rest by simp,
        lookupA_cons, if_neg hk] at h
      exact h
    simp only [List.foldl_cons]
    rw [ih hr, utilAt_commitOne_ne _ _ _ _ _ _ (fun e => hk e.1)]

theorem utilAt_inner_key (assigned : List (String × ℚ)) (p : ℕ) (rid1 : String) (a : ℚ)
    (hkeys : (assigned.map Prod.fst).Nodup) (hl : lookupA assigned rid1 = some a) :
    ∀ u, utilAt (assigned.foldl (fun u2 kv => commitOne u2 p kv.1 kv.2) u) rid1 p =
        utilAt u rid1 p + a ∨
      utilAt (assigned.foldl (fun u2 kv => commitOne u2 p kv.1 kv.2) u) rid1 p =
        utilAt u rid1 p := by
  induction assigned with
  | nil =>
    intro u
    simp [lookupA, List.find?] at hl
  | cons kv rest ih =>
    intro u
    simp only [List.map_cons, List.nodup_cons] at hkeys
    by_cases hk : rid1 = kv.1
    · have ha : a = kv.2 := by
        rw [show (kv :: rest : List (String × ℚ)) = (kv.1, kv.2) :: rest by simp,
          lookupA_cons, if_pos hk] at hl
        exact (Option.some_inj.1 hl).symm
      have hrest : lookupA rest rid1 = none := by
        apply lookupA_eq_none
        intro kv2 hkv2 e
        exact hkeys.1 (by rw [← hk, ← e]; exact List.mem_map_of_mem _ hkv2)
      simp only [List.foldl_cons]
      rw [utilAt_inner_notkey rest p rid1 p hrest]
      rcases utilAt_commitOne_self u p kv.1 kv.2 with h | h
      · left
        rw [hk, ha]
        exact h
      · right
        rw [hk]
        exact h
    · have hrest : lookupA rest rid1 = some a := by
        rw [show (kv :: rest : List (String × ℚ)) = (kv.1, kv.2) :: rest by simp,
          lookupA_cons, if_neg hk] at hl
        exact hl
      simp only [List.foldl_cons]
      rcases ih hkeys.2 hrest (commitOne u p kv.1 kv.2) with h | h
      · left
        rw [h, utilAt_commitOne_ne _ _ _ _ _ _ (fun e => hk e.1)]
      · right
        rw [h, utilAt_commitOne_ne _ _ _ _ _ _ (fun e => hk e.1)]

theorem utilAt_periods_ne (assigned : List (String × ℚ)) (rid1 : String) (p1 : ℕ)
    (L : List ℕ) (h : p1 ∉ L) :
    ∀ util, utilAt (L.foldl
        (fun u p => assigned.foldl (fun u2 kv => commitOne u2 p kv.1 kv.2) u) util) rid1 p1 =
      utilAt util rid1 p1 := by
  induction L with
  | nil => intro util; rfl
  | cons p L ih =>
    intro util
    simp only [List.foldl_cons]
    rw [ih (fun e => h (List.mem_cons_of_mem _ e)),
      utilAt_inner_ne _ _ _ _ (fun e => h (by rw [e]; exact List.mem_cons_self _ _))]

theorem utilAt_commitTask_ne (util : List (String × List ℚ)) (assigned : List (String × ℚ))
    (start dur : ℕ) (rid1 : String) (p1 : ℕ) (h : p1 ∉ List.range' start dur) :
    utilAt (commitTask util assigned start dur) rid1 p1 = utilAt util rid1 p1 := by
  unfold commitTask
  exact utilAt_periods_ne assigned rid1 p1 _ h util

theorem utilAt_commitTask_key (util : List (String × List ℚ)) (assigned : List (String × ℚ))
    (start dur : ℕ) (rid1 : String) (p1 : ℕ) (a : ℚ)
    (hkeys : (assigned.map Prod.fst).Nodup) (hl : lookupA assigned rid1 = some a)
    (hp : p1 ∈ List.range' start dur) :
    utilAt (commitTask util assigned start dur) rid1 p1 = utilAt util rid1 p1 + a ∨
    utilAt (commitTask util assigned start dur) rid1 p1 = utilAt util rid1 p1 := by
  unfold commitTask
  have hnd : (List.range' start dur).Nodup := List.nodup_range' start dur
  revert hp hnd
  generalize List.range' start dur = L
  induction L generalizing util with
  | nil =>
    intro hp _
    exact absurd hp (List.not_mem_nil _)
  | cons p L ih =>
    intro hp hnd
    simp only [List.nodup_cons] at hnd
    simp only [List.foldl_cons]
    by_cases hpp : p1 = p
    · subst hpp
      rw [utilAt_periods_ne assigned rid1 p1 L hnd.1]
      exact utilAt_inner_key assigned p1 rid1 a hkeys hl util
    · have hpL : p1 ∈ L := by
        rcases List.mem_cons.1 hp with h | h
        · exact absurd h hpp
        · exact h
      rcases ih (assigned.foldl (fun u2 kv => commitOne u2 p kv.1 kv.2) util) hpL hnd.2 with
        h | h
      · left
        rw [h, utilAt_inner_ne _ _ _ _ hpp]
      · right
        rw [h, utilAt_inner_ne _ _ _ _ hpp]

theorem utilAt_commitOne_le (util : List (String × List ℚ)) (p : ℕ) (rid : String) (a : ℚ)
    (ha : 0 ≤ a) (rid1 : String) (p1 : ℕ) :
    utilAt util rid1 p1 ≤ utilAt (commitOne util p rid a) rid1 p1 := by
  by_cases h : rid1 = rid ∧ p1 = p
  · rcases h with ⟨h1, h2⟩
    subst h1; subst h2
    rcases utilAt_commitOne_self util p1 rid1 a with h | h
    · rw [h]; linarith
    · rw [h]
  · rw [utilAt_commitOne_ne _ _ _ _ _ _ h]

theorem utilAt_commitTask_le (util : List (String × List ℚ)) (assigned : List (String × ℚ))
    (start dur : ℕ) (rid1 : String) (p1 : ℕ) (ha : ∀ kv ∈ assigned, 0 ≤ kv.2) :
    utilAt util rid1 p1 ≤ utilAt (commitTask util assigned start dur) rid1 p1 := by
  have hinner : ∀ (p : ℕ) (u : List (String × List ℚ)),
      utilAt u rid1 p1 ≤
        utilAt (assigned.foldl (fun u2 kv => commitOne u2 p kv.1 kv.2) u) rid1 p1 := by
    intro p
    induction assigned with
    | nil => intro u; exact le_refl _
    | cons kv rest ih =>
      intro u
      simp only [List.foldl_cons]
      calc utilAt u rid1 p1
          ≤ utilAt (commitOne u p kv.1 kv.2) rid1 p1 :=
            utilAt_commitOne_le _ _ _ _ (ha kv (List.mem_cons_self _ _)) _ _
        _ ≤ _ := ih (fun kv2 h2 => ha kv2 (List.mem_cons_of_mem _ h2)) _
  unfold commitTask
  generalize List.range' start dur = L
  induction L generalizing util with
  | nil => exact le_refl _
  | cons p L ih =>
    simp only [List.foldl_cons]
    calc utilAt util rid1 p1
        ≤ utilAt (assigned.foldl (fun u2 kv => commitOne u2 p kv.1 kv.2) util) rid1 p1 :=
          hinner p util
      _ ≤ _ := ih _

theorem utilAt_commitTask_notkey (util : List (String × List ℚ)) (assigned : List (String × ℚ))
    (start dur : ℕ) (rid1 : String) (p1 : ℕ) (h : lookupA assigned rid1 = none) :
    utilAt (commitTask util assigned start dur) rid1 p1 = utilAt util rid1 p1 := by
  unfold commitTask
  generalize List.range' start dur = L
  induction L generalizing util with
  | nil => rfl
  | cons p L ih =>
    simp only [List.foldl_cons]
    rw [ih _, utilAt_inner_notkey assigned p rid1 p1 h]

theorem mem_keys_upsert {α : Type} (m : List (String × α)) (k : String) (v : α) (x : String)
    (h : x ∈ (upsert m k v).map Prod.fst) : x = k ∨ x ∈ m.map Prod.fst := by
  rcases List.mem_map.1 h with ⟨kv, hkv, hx⟩
  rcases mem_upsert _ _ _ _ hkv with h1 | h1
  · right
    rw [← hx]
    exact List.mem_map_of_mem _ h1
  · left
    rw [← hx, h1]

theorem upsert_keys_nodup {α : Type} (m : List (String × α)) (k : String) (v : α)
    (h : (m.map Prod.fst).Nodup) : ((upsert m k v).map Prod.fst).Nodup := by
  induction m with
  | nil => simp [upsert]
  | cons hd rest ih =>
    simp only [List.map_cons, List.nodup_cons] at h
    by_cases hk : hd.1 = k
    · simp only [upsert, if_pos hk, List.map_cons, List.nodup_cons]
      exact ⟨by rw [← hk]; exact h.1, h.2⟩
    · simp only [upsert, if_neg hk, List.map_cons, List.nodup_cons]
      constructor
      · intro hmem
        rcases mem_keys_upsert rest k v hd.1 hmem with h1 | h1
        · exact hk h1
        · exact h.1 h1
      · exact ih h.2

theorem tryStartGo_keys_nodup (resources : List Resource) (util : List (String × List ℚ))
    (start dur : ℕ) :
    ∀ (reqs : List ResourceReq) (assigned out : List (String × ℚ)),
      (assigned.map Prod.fst).Nodup →
      tryStartGo resources util start dur reqs assigned = some out →
      (out.map Prod.fst).Nodup := by
  intro reqs
  induction reqs with
  | nil =>
    intro assigned out hnd h
    simp only [tryStartGo] at h
    rw [← Option.some_inj.1 h]
    exact hnd
  | cons req rest ih =>
    intro assigned out hnd h
    simp only [tryStartGo] at h
    split at h
    · exact Option.noConfusion h
    · split at h
      · exact ih _ _ (upsert_keys_nodup _ _ _ hnd) h
      · exact Option.noConfusion h

theorem tryStartGo_post (resources : List Resource) (util : List (String × List ℚ))
    (start dur : ℕ) (R : List ResourceReq) :
    ∀ (reqs : List ResourceReq) (assigned out : List (String × ℚ)),
      (∀ req ∈ reqs, req ∈ R) →
      (∀ rid a, lookupA assigned rid = some a → reqBound resources util start dur R rid a) →
      tryStartGo resources util start dur reqs assigned = some out →
      (∀ rid a, lookupA out rid = some a → reqBound resources util start dur R rid a) := by
  intro reqs
  induction reqs with
  | nil =>
    intro assigned out _ hinv h
    simp only [tryStartGo] at h
    rw [← Option.some_inj.1 h]
    exact hinv
  | cons req rest ih =>
    intro assigned out hsub hinv h
    simp only [tryStartGo] at h
    split at h
    · exact Option.noConfusion h
    next r hf =>
      split at h
      case isTrue hchk =>
        refine ih _ _ (fun q hq => hsub q (List.mem_cons_of_mem _ hq)) ?_ h
        intro rid a hl
        rw [lookupA_upsert] at hl
        by_cases hr : rid = req.resourceId
        · rw [if_pos hr] at hl
          have ha : a = req.amount := Option.some_inj.1 hl.symm
          have hrid : r.id = rid := by
            have := List.find?_some hf
            simp only [beq_iff_eq] at this
            rw [this, hr]
          refine ⟨r, ?_, ?_, req, hsub req (List.mem_cons_self _ _), hr.symm, ha.symm⟩
          · rw [hr]; exact hf
          · intro p hp
            have := List.all_eq_true.1 hchk p hp
            rw [ha, ← hrid]
            exact of_decide_eq_true this
        · rw [if_neg hr] at hl
          exact hinv rid a hl
      case isFalse hchk => exact Option.noConfusion h

theorem tryStart_post (task : Task) (resources : List Resource)
    (util : List (String × List ℚ)) (start : ℕ) (out : List (String × ℚ))
    (h : tryStart task resources util start = some out) :
    (∀ rid a, lookupA out rid = some a →
      reqBound resources util start task.duration task.requiredResources rid a) ∧
    (out.map Prod.fst).Nodup := by
  constructor
  · refine tryStartGo_post resources util start task.duration task.requiredResources
      task.requiredResources [] out (fun q hq => hq) ?_ h
    intro rid a hl
    simp [lookupA, List.find?] at hl
  · exact tryStartGo_keys_nodup resources util start task.duration task.requiredResources [] out
      (by simp) h

theorem findStart_some (task : Task) (resources : List Resource)
    (util : List (String × List ℚ)) :
    ∀ (steps s start : ℕ) (assigned : List (String × ℚ)),
      findStart task resources util s steps = some (start, assigned) →
      tryStart task resources util start = some assigned := by
  intro steps
  induction steps with
  | zero => intro s start assigned h; exact Option.noConfusion h
  | succ steps ih =>
    intro s start assigned h
    simp only [findStart] at h
    cases ht : tryStart task resources util s with
    | some a =>
      rw [ht] at h
      have h1 := Option.some_inj.1 h
      have hs : s = start := congrArg Prod.fst h1
      have ha : a = assigned := congrArg Prod.snd h1
      rw [← hs, ← ha]
      exact ht
    | none =>
      rw [ht] at h
      exact ih _ _ _ h

theorem scheduleTask_some (task : Task) (resources : List Resource)
    (util : List (String × List ℚ)) (es mp start : ℕ) (assigned : List (String × ℚ))
    (h : scheduleTask task resources util es mp = some (start, assigned)) :
    tryStart task resources util start = some assigned := by
  unfold scheduleTask at h
  by_cases hg : es + task.duration ≤ mp
  · rw [if_pos hg] at h
    exact findStart_some task resources util _ _ _ _ h
  · rw [if_neg hg] at h
    exact Option.noConfusion h

theorem effAvail_nonneg (r : Resource) (p : ℕ) (h : ∀ a ∈ r.availability, 0 ≤ a) :
    0 ≤ effAvail r p := by
  unfold effAvail
  by_cases h0 : r.availability.length = 0
  · simp [h0]
  · rw [if_neg h0]
    set v := r.availability.getD (p % r.availability.length) 0 with hv
    by_cases hz : v = 0
    · simp [hz]
    · rw [if_neg hz]
      have hlt : p % r.availability.length < r.availability.length :=
        Nat.mod_lt _ (Nat.pos_of_ne_zero h0)
      rw [hv, List.getD_eq_getElem _ _ hlt]
      exact h _ (List.getElem_mem hlt)

theorem lookupA_of_mem {α : Type} (m : List (String × α)) (kv : String × α) (hkv : kv ∈ m)
    (hnd : (m.map Prod.fst).Nodup) : lookupA m kv.1 = some kv.2 := by
  induction m with
  | nil => exact absurd hkv (List.not_mem_nil _)
  | cons hd rest ih =>
    simp only [List.map_cons, List.nodup_cons] at hnd
    rcases List.mem_cons.1 hkv with h | h
    · subst h
      rw [show (kv :: rest : List (String × α)) = (kv.1, kv.2) :: rest by simp, lookupA_cons,
        if_pos rfl]
    · have hne : kv.1 ≠ hd.1 := by
        intro e
        exact hnd.1 (e ▸ List.mem_map_of_mem _ h)
      rw [show (hd :: rest : List (String × α)) = (hd.1, hd.2) :: rest by simp, lookupA_cons,
        if_neg hne]
      exact ih h hnd.2

theorem schedStep_util_bound (resources : List Resource) (maxPeriods : ℕ) (st : SchedState)
    (task : Task)
    (hP : ∀ rid r p, resources.find? (fun x => x.id == rid) = some r →
      utilAt st.util rid p ≤ r.maxCapacity * effAvail r p) :
    ∀ rid r p, resources.find? (fun x => x.id == rid) = some r →
      utilAt (schedStep resources maxPeriods st task).util rid p ≤
        r.maxCapacity * effAvail r p := by
  intro rid r p hfind
  cases hs : scheduleTask task resources st.util (getEarliestStartTime task st.schedule)
      maxPeriods with
  | none =>
    simp only [schedStep, hs]
    exact hP rid r p hfind
  | some pair =>
    obtain ⟨start, assigned⟩ := pair
    simp only [schedStep, hs]
    have htry := scheduleTask_some task resources st.util _ _ _ _ hs
    obtain ⟨hpost, hkeys⟩ := tryStart_post task resources st.util start assigned htry
    cases hl : lookupA assigned rid with
    | none =>
      rw [utilAt_commitTask_notkey _ _ _ _ _ _ hl]
      exact hP rid r p hfind
    | some a =>
      by_cases hp : p ∈ List.range' start task.duration
      · rcases utilAt_commitTask_key st.util assigned start task.duration rid p a hkeys hl hp
          with h | h
        · rw [h]
          obtain ⟨r2, hfind2, hbound, _⟩ := hpost rid a hl
          rw [hfind] at hfind2
          have hr2 : r2 = r := Option.some_inj.1 hfind2.symm
          rw [← hr2]
          exact hbound p hp
        · rw [h]
          exact hP rid r p hfind
      · rw [utilAt_commitTask_ne _ _ _ _ _ _ hp]
        exact hP rid r p hfind

theorem schedStep_util_nonneg (resources : List Resource) (maxPeriods : ℕ) (st : SchedState)
    (task : Task) (hamt : ∀ req ∈ task.requiredResources, 0 ≤ req.amount)
    (hN : ∀ rid p, 0 ≤ utilAt st.util rid p) :
    ∀ rid p, 0 ≤ utilAt (schedStep resources maxPeriods st task).util rid p := by
  intro rid p
  cases hs : scheduleTask task resources st.util (getEarliestStartTime task st.schedule)
      maxPeriods with
  | none =>
    simp only [schedStep, hs]
    exact hN rid p
  | some pair =>
    obtain ⟨start, assigned⟩ := pair
    simp only [schedStep, hs]
    have htry := scheduleTask_some task resources st.util _ _ _ _ hs
    obtain ⟨hpost, hkeys⟩ := tryStart_post task resources st.util start assigned htry
    have hassigned : ∀ kv ∈ assigned, 0 ≤ kv.2 := by
      intro kv hkv
      obtain ⟨r2, _, _, req, hreq, _, hamt_eq⟩ := hpost kv.1 kv.2 (lookupA_of_mem _ kv hkv hkeys)
      rw [← hamt_eq]
      exact hamt req hreq
    calc (0 : ℚ) ≤ utilAt st.util rid p := hN rid p
      _ ≤ _ := utilAt_commitTask_le st.util assigned start task.duration rid p hassigned

theorem optimize_util_bound (tasks : List Task) (resources : List Resource) (dl : Option ℕ)
    (hcap : ∀ r ∈ resources, 0 ≤ r.maxCapacity)
    (havail : ∀ r ∈ resources, ∀ a ∈ r.availability, 0 ≤ a)
    (rid : String) (r : Resource) (p : ℕ)
    (hfind : resources.find? (fun x => x.id == rid) = some r) :
    utilAt (optimizeResourceAllocation tasks resources dl).resourceUtilization rid p ≤
      r.maxCapacity * effAvail r p := by
  have key := foldl_preserves (schedStep resources (jsOrNat dl 100))
    (fun st => ∀ rid1 r1 p1, resources.find? (fun x => x.id == rid1) = some r1 →
      utilAt st.util rid1 p1 ≤ r1.maxCapacity * effAvail r1 p1)
    (fun st task h => schedStep_util_bound resources (jsOrNat dl 100) st task h)
    (topologicalSort tasks)
    { schedule := [], util := initUtil resources (jsOrNat dl 100), conflicts := [] }
    (by
      intro rid1 r1 p1 hf1
      have h1 : r1 ∈ resources := List.mem_of_find?_eq_some hf1
      rw [utilAt_initUtil]
      exact mul_nonneg (hcap r1 h1) (effAvail_nonneg r1 p1 (havail r1 h1)))
  exact key rid r p hfind

theorem optimize_util_nonneg (tasks : List Task) (resources : List Resource) (dl : Option ℕ)
    (hamt : ∀ t ∈ topologicalSort tasks, ∀ req ∈ t.requiredResources, 0 ≤ req.amount) :
    ∀ rid p, 0 ≤ utilAt (optimizeResourceAllocation tasks resources dl).resourceUtilization
      rid p := by
  have key : ∀ (L : List Task) (st : SchedState),
      (∀ t ∈ L, ∀ req ∈ t.requiredResources, 0 ≤ req.amount) →
      (∀ rid p, 0 ≤ utilAt st.util rid p) →
      ∀ rid p, 0 ≤ utilAt (L.foldl (schedStep resources (jsOrNat dl 100)) st).util rid p := by
    intro L
    induction L with
    | nil => intro st _ hN; exact hN
    | cons t L ih =>
      intro st hL hN
      simp only [List.foldl_cons]
      exact ih _ (fun t2 h2 => hL t2 (List.mem_cons_of_mem _ h2))
        (schedStep_util_nonneg resources _ st t (hL t (List.mem_cons_self _ _)) hN)
  exact key (topologicalSort tasks)
    { schedule := [], util := initUtil resources (jsOrNat dl 100), conflicts := [] }
    hamt (by intro rid p; rw [utilAt_initUtil])

/-! ## Topological-sort lemmas -/

theorem visitFuel_mono (tasks : List Task) :
    ∀ (fuel : ℕ) (visiting : List String) (st : TopoState) (tid : String),
      (∀ x ∈ st.visited, x ∈ (visitFuel tasks fuel visiting st tid).visited) ∧
      ∃ ext, (visitFuel tasks fuel visiting st tid).result = st.result ++ ext := by
  intro fuel
  induction fuel with
  | zero =>
    intro visiting st tid
    exact ⟨fun x h => h, [], by simp [visitFuel]⟩
  | succ fuel ih =>
    intro visiting st tid
    have haux : ∀ (l : List String) (st0 : TopoState),
        (∀ x ∈ st0.visited,
          x ∈ (l.foldl (visitFuel tasks fuel (tid :: visiting)) st0).visited) ∧
        ∃ ext, (l.foldl (visitFuel tasks fuel (tid :: visiting)) st0).result =
          st0.result ++ ext := by
      intro l
      induction l with
      | nil => intro st0; exact ⟨fun x h => h, [], by simp⟩
      | cons hd tl ihl =>
        intro st0
        simp only [List.foldl_cons]
        obtain ⟨hv1, e1, he1⟩ := ih (tid :: visiting) st0 hd
        obtain ⟨hv2, e2, he2⟩ := ihl (visitFuel tasks fuel (tid :: visiting) st0 hd)
        exact ⟨fun x h => hv2 x (hv1 x h), e1 ++ e2, by rw [he2, he1, List.append_assoc]⟩
    simp only [visitFuel]
    by_cases h1 : tid ∈ visiting
    · simp only [if_pos h1]
      exact ⟨fun x h => h, [], by simp⟩
    · simp only [if_neg h1]
      by_cases h2 : tid ∈ st.visited
      · simp only [if_pos h2]
        exact ⟨fun x h => h, [], by simp⟩
      · simp only [if_neg h2]
        cases hf : tasks.find? (fun t => t.id == tid) with
        | none => exact ⟨fun x h => h, [], by simp⟩
        | some task =>
          obtain ⟨hv, ext, hext⟩ := haux task.prerequisites st
          refine ⟨fun x h => List.mem_cons_of_mem _ (hv x h), ext ++ [task], ?_⟩
          simp only [hext, List.append_assoc]

theorem visitFuel_J (tasks : List Task) :
    ∀ (fuel : ℕ) (visiting : List String) (st : TopoState) (tid : String),
      topoJ tasks st → topoJ tasks (visitFuel tasks fuel visiting st tid) := by
  intro fuel
  induction fuel with
  | zero =>
    intro visiting st tid hJ
    simpa [visitFuel, topoJ] using hJ
  | succ fuel ih =>
    intro visiting st tid hJ
    have haux : ∀ (l : List String) (st0 : TopoState), topoJ tasks st0 →
        topoJ tasks (l.foldl (visitFuel tasks fuel (tid :: visiting)) st0) := by
      intro l
      induction l with
      | nil => intro st0 h; exact h
      | cons hd tl ihl =>
        intro st0 h
        simp only [List.foldl_cons]
        exact ihl _ (ih (tid :: visiting) st0 hd h)
    simp only [visitFuel]
    by_cases h1 : tid ∈ visiting
    · simp only [if_pos h1]; exact hJ
    · simp only [if_neg h1]
      by_cases h2 : tid ∈ st.visited
      · simp only [if_pos h2]; exact hJ
      · simp only [if_neg h2]
        cases hf : tasks.find? (fun t => t.id == tid) with
        | none => exact hJ
        | some task =>
          intro x hx
          rcases List.mem_cons.1 hx with hx1 | hx1
          · exact ⟨task, hx1 ▸ hf, by simp⟩
          · obtain ⟨tk, htk1, htk2⟩ := haux task.prerequisites st hJ x hx1
            exact ⟨tk, htk1, by simp [htk2]⟩

theorem visitFuel_covers (tasks : List Task) (fuel : ℕ) (visiting : List String)
    (st : TopoState) (tid : String) (hfuel : fuel ≠ 0) (hvis : tid ∉ visiting) :
    tasks.find? (fun t => t.id == tid) = none ∨
      tid ∈ (visitFuel tasks fuel visiting st tid).visited := by
  cases fuel with
  | zero => exact absurd rfl hfuel
  | succ fuel =>
    simp only [visitFuel, if_neg hvis]
    by_cases h2 : tid ∈ st.visited
    · simp only [if_pos h2]
      right
      exact h2
    · simp only [if_neg h2]
      cases hf : tasks.find? (fun t => t.id == tid) with
      | none => left; rfl
      | some task =>
        right
        exact List.mem_cons_self _ _

theorem visitFuel_result_sub (tasks : List Task) :
    ∀ (fuel : ℕ) (visiting : List String) (st : TopoState) (tid : String),
      (∀ t ∈ st.result, t ∈ tasks) →
      ∀ t ∈ (visitFuel tasks fuel visiting st tid).result, t ∈ tasks := by
  intro fuel
  induction fuel with
  | zero =>
    intro visiting st tid h
    simpa [visitFuel] using h
  | succ fuel ih =>
    intro visiting st tid h
    have haux : ∀ (l : List String) (st0 : TopoState), (∀ t ∈ st0.result, t ∈ tasks) →
        ∀ t ∈ (l.foldl (visitFuel tasks fuel (tid :: visiting)) st0).result, t ∈ tasks := by
      intro l
      induction l with
      | nil => intro st0 h0; exact h0
      | cons hd tl ihl =>
        intro st0 h0
        simp only [List.foldl_cons]
        exact ihl _ (ih (tid :: visiting) st0 hd h0)
    simp only [visitFuel]
    by_cases h1 : tid ∈ visiting
    · simp only [if_pos h1]; exact h
    · simp only [if_neg h1]
      by_cases h2 : tid ∈ st.visited
      · simp only [if_pos h2]; exact h
      · simp only [if_neg h2]
        cases hf : tasks.find? (fun t => t.id == tid) with
        | none => exact h
        | some task =>
          intro t ht
          simp only [List.mem_append, List.mem_singleton] at ht
          rcases ht with ht | ht
          · exact haux task.prerequisites st h t ht
          · rw [ht]
            exact List.mem_of_find?_eq_some hf

theorem find?_task_of_nodup (tasks : List Task) (t : Task) (hmem : t ∈ tasks)
    (hnd : (tasks.map Task.id).Nodup) :
    tasks.find? (fun x => x.id == t.id) = some t := by
  induction tasks with
  | nil => exact absurd hmem (List.not_mem_nil _)
  | cons hd tl ih =>
    simp only [List.map_cons, List.nodup_cons] at hnd
    rcases List.mem_cons.1 hmem with h | h
    · subst h
      exact List.find?_cons_of_pos _ (by simp)
    · have hne : hd.id ≠ t.id := by
        intro e
        exact hnd.1 (e ▸ List.mem_map_of_mem _ h)
      rw [List.find?_cons_of_neg _ (by simpa using hne)]
      exact ih h hnd.2

theorem foldl_visited_mono (tasks : List Task) (fuel : ℕ) :
    ∀ (L : List Task) (st : TopoState) (x : String), x ∈ st.visited →
      x ∈ (L.foldl (fun st1 t => visitFuel tasks fuel [] st1 t.id) st).visited := by
  intro L
  induction L with
  | nil => intro st x h; exact h
  | cons hd tl ih =>
    intro st x h
    simp only [List.foldl_cons]
    exact ih _ x ((visitFuel_mono tasks fuel [] st hd.id).1 x h)

theorem foldl_J (tasks : List Task) (fuel : ℕ) :
    ∀ (L : List Task) (st : TopoState), topoJ tasks st →
      topoJ tasks (L.foldl (fun st1 t => visitFuel tasks fuel [] st1 t.id) st) := by
  intro L
  induction L with
  | nil => intro st h; exact h
  | cons hd tl ih =>
    intro st h
    simp only [List.foldl_cons]
    exact ih _ (visitFuel_J tasks fuel [] st hd.id h)

theorem topo_mem (tasks : List Task) (t : Task) (hmem : t ∈ tasks)
    (hnd : (tasks.map Task.id).Nodup) : t ∈ topologicalSort tasks := by
  have hfind : tasks.find? (fun x => x.id == t.id) = some t := find?_task_of_nodup tasks t hmem hnd
  have hfuel : (taskIdUniverse tasks).length + 1 ≠ 0 := Nat.succ_ne_zero _
  have hvisited : ∀ (L : List Task) (st : TopoState), t ∈ L →
      t.id ∈ (L.foldl
        (fun st1 t1 => visitFuel tasks ((taskIdUniverse tasks).length + 1) [] st1 t1.id)
        st).visited := by
    intro L
    induction L with
    | nil => intro st h; exact absurd h (List.not_mem_nil _)
    | cons hd tl ih =>
      intro st h
      simp only [List.foldl_cons]
      by_cases he : t = hd
      · subst he
        rcases visitFuel_covers tasks _ [] st t.id hfuel (List.not_mem_nil _) with h1 | h1
        · rw [hfind] at h1
          exact Option.noConfusion h1
        · exact foldl_visited_mono tasks _ tl _ t.id h1
      · have htl : t ∈ tl := by
          rcases List.mem_cons.1 h with h2 | h2
          · exact absurd h2 he
          · exact h2
        exact ih _ htl
  have hv := hvisited tasks { visited := [], result := [], ok := true } hmem
  have hJ : topoJ tasks (topoRun tasks) := by
    apply foldl_J
    intro x hx
    exact absurd hx (List.not_mem_nil _)
  obtain ⟨tk, htk1, htk2⟩ := hJ t.id hv
  rw [hfind] at htk1
  have heq : t = tk := Option.some_inj.1 htk1
  rw [heq]
  exact htk2

theorem topo_subset (tasks : List Task) : ∀ t ∈ topologicalSort tasks, t ∈ tasks := by
  have key : ∀ (L : List Task) (st : TopoState), (∀ t ∈ st.result, t ∈ tasks) →
      ∀ t ∈ (L.foldl
        (fun st1 t1 => visitFuel tasks ((taskIdUniverse tasks).length + 1) [] st1 t1.id)
        st).result, t ∈ tasks := by
    intro L
    induction L with
    | nil => intro st h; exact h
    | cons hd tl ih =>
      intro st h
      simp only [List.foldl_cons]
      exact ih _ (visitFuel_result_sub tasks _ [] st hd.id h)
  exact key tasks { visited := [], result := [], ok := true }
    (by intro t ht; exact absurd ht (List.not_mem_nil _))

theorem length_filter_lt {α : Type} (p : α → Bool) (l : List α) (a : α) (ha : a ∈ l)
    (hpa : p a = false) : (l.filter p).length < l.length := by
  induction l with
  | nil => exact absurd ha (List.not_mem_nil _)
  | cons hd tl ih =>
    rcases List.mem_cons.1 ha with h | h
    · subst h
      rw [List.filter_cons, hpa]
      simp only [List.length_cons]
      exact Nat.lt_succ_of_le (List.length_filter_le p tl)
    · rw [List.filter_cons]
      cases hp : p hd with
      | true =>
        simp only [List.length_cons]
        exact Nat.succ_lt_succ (ih h)
      | false =>
        simp only [List.length_cons]
        exact Nat.lt_succ_of_lt (ih h)

theorem visitFuel_ok (tasks : List Task) :
    ∀ (fuel : ℕ) (visiting : List String) (st : TopoState) (tid : String),
      ((taskIdUniverse tasks).filter (fun x => decide (x ∉ visiting))).length < fuel →
      (visitFuel tasks fuel visiting st tid).ok = st.ok := by
  intro fuel
  induction fuel with
  | zero =>
    intro visiting st tid h
    exact absurd h (Nat.not_lt_zero _)
  | succ fuel ih =>
    intro visiting st tid hm
    simp only [visitFuel]
    by_cases h1 : tid ∈ visiting
    · simp [if_pos h1]
    · simp only [if_neg h1]
      by_cases h2 : tid ∈ st.visited
      · simp [if_pos h2]
      · simp only [if_neg h2]
        cases hf : tasks.find? (fun t => t.id == tid) with
        | none => rfl
        | some task =>
          have htid : tid ∈ taskIdUniverse tasks := by
            have h3 := List.find?_some hf
            simp only [beq_iff_eq] at h3
            unfold taskIdUniverse
            rw [List.mem_dedup]
            exact h3 ▸ List.mem_map_of_mem _ (List.mem_of_find?_eq_some hf)
          have hmeasure :
              ((taskIdUniverse tasks).filter
                (fun x => decide (x ∉ tid :: visiting))).length < fuel := by
            have hsplit : (taskIdUniverse tasks).filter (fun x => decide (x ∉ tid :: visiting)) =
                ((taskIdUniverse tasks).filter (fun x => decide (x ∉ visiting))).filter
                  (fun x => decide (x ≠ tid)) := by
              rw [List.filter_filter]
              apply List.filter_congr
              intro x _
              by_cases hx1 : x = tid
              · simp [hx1]
              · by_cases hx2 : x ∈ visiting
                · simp [hx1, hx2]
                · simp [hx1, hx2]
            have hlt : (((taskIdUniverse tasks).filter (fun x => decide (x ∉ visiting))).filter
                (fun x => decide (x ≠ tid))).length <
                ((taskIdUniverse tasks).filter (fun x => decide (x ∉ visiting))).length := by
              apply length_filter_lt _ _ tid
              · rw [List.mem_filter]
                exact ⟨htid, by simpa using h1⟩
              · simp
            rw [hsplit]
            omega
          have hfold : ∀ (l : List String) (st0 : TopoState),
              (l.foldl (visitFuel tasks fuel (tid :: visiting)) st0).ok = st0.ok := by
            intro l
            induction l with
            | nil => intro st0; rfl
            | cons hd tl ihl =>
              intro st0
              simp only [List.foldl_cons]
              rw [ihl, ih (tid :: visiting) st0 hd hmeasure]
          exact hfold task.prerequisites st

theorem topoRun_ok (tasks : List Task) : (topoRun tasks).ok = true := by
  unfold topoRun
  have key : ∀ (L : List Task) (st : TopoState), st.ok = true →
      (L.foldl
        (fun st1 t => visitFuel tasks ((taskIdUniverse tasks).length + 1) [] st1 t.id)
        st).ok = true := by
    intro L
    induction L with
    | nil => intro st h; exact h
    | cons hd tl ih =>
      intro st h
      simp only [List.foldl_cons]
      apply ih
      rw [visitFuel_ok tasks _ [] st hd.id ?_, h]
      calc ((taskIdUniverse tasks).filter (fun x => decide (x ∉ ([] : List String)))).length
          ≤ (taskIdUniverse tasks).length := List.length_filter_le _ _
        _ < (taskIdUniverse tasks).length + 1 := Nat.lt_succ_self _
  exact key tasks _ rfl

/-! ## Infeasibility of a positive demand on a zero-capacity resource -/

theorem task_id_inj (tasks : List Task) (hnd : (tasks.map Task.id).Nodup) (t1 t2 : Task)
    (h1 : t1 ∈ tasks) (h2 : t2 ∈ tasks) (he : t1.id = t2.id) : t1 = t2 := by
  have f1 := find?_task_of_nodup tasks t1 h1 hnd
  have f2 := find?_task_of_nodup tasks t2 h2 hnd
  rw [he] at f1
  rw [f1] at f2
  exact Option.some_inj.1 f2

theorem tryStartGo_none_of_bad (resources : List Resource) (util : List (String × List ℚ))
    (start dur : ℕ) (req : ResourceReq) (r : Resource)
    (hpos : 0 < req.amount)
    (hfind : resources.find? (fun x => x.id == req.resourceId) = some r)
    (hcap0 : r.maxCapacity = 0) (hdur : 1 ≤ dur)
    (hN : ∀ rid p, 0 ≤ utilAt util rid p) :
    ∀ (reqs : List ResourceReq) (assigned : List (String × ℚ)), req ∈ reqs →
      tryStartGo resources util start dur reqs assigned = none := by
  intro reqs
  induction reqs with
  | nil => intro assigned h; exact absurd h (List.not_mem_nil _)
  | cons hd rest ih =>
    intro assigned hmem
    simp only [tryStartGo]
    by_cases he : hd = req
    · subst he
      split
      · rfl
      next r2 hf2 =>
        have hr2 : r2 = r := by
          rw [hfind] at hf2
          exact (Option.some_inj.1 hf2).symm
        split
        next hchk =>
          exfalso
          have hstart : start ∈ List.range' start dur := by
            simp only [List.mem_range'_1]
            omega
          have hle := of_decide_eq_true (List.all_eq_true.1 hchk start hstart)
          have hr : r2.id = hd.resourceId := by
            have h3 := List.find?_some hf2
            simpa using h3
          rw [hr2, hcap0, zero_mul] at hle
          rw [hr2] at hr
          rw [hr] at hle
          have h4 := hN hd.resourceId start
          linarith
        next hchk => rfl
    · have hrest : req ∈ rest := by
        rcases List.mem_cons.1 hmem with h | h
        · exact absurd h.symm he
        · exact h
      split
      · rfl
      · split
        · exact ih _ hrest
        · rfl

theorem scheduleTask_none_of_bad (task : Task) (resources : List Resource)
    (util : List (String × List ℚ)) (es mp : ℕ) (req : ResourceReq) (r : Resource)
    (hreq : req ∈ task.requiredResources) (hpos : 0 < req.amount)
    (hfind : resources.find? (fun x => x.id == req.resourceId) = some r)
    (hcap0 : r.maxCapacity = 0) (hdur : 1 ≤ task.duration)
    (hN : ∀ rid p, 0 ≤ utilAt util rid p) :
    scheduleTask task resources util es mp = none := by
  have htry : ∀ s, tryStart task resources util s = none := by
    intro s
    exact tryStartGo_none_of_bad resources util s task.duration req r hpos hfind hcap0 hdur hN
      task.requiredResources [] hreq
  have hfs : ∀ (steps s : ℕ), findStart task resources util s steps = none := by
    intro steps
    induction steps with
    | zero => intro s; rfl
    | succ steps ih =>
      intro s
      simp only [findStart]
      rw [htry s]
      exact ih (s + 1)
  unfold scheduleTask
  split
  · exact hfs _ _
  · rfl

theorem schedStep_conflicts_mono (resources : List Resource) (mp : ℕ) (st : SchedState)
    (task : Task) (c : String) (hc : c ∈ st.conflicts) :
    c ∈ (schedStep resources mp st task).conflicts := by
  cases hs : scheduleTask task resources st.util (getEarliestStartTime task st.schedule) mp with
  | none =>
    simp only [schedStep, hs]
    exact List.mem_append_left _ hc
  | some pair =>
    obtain ⟨start, assigned⟩ := pair
    simp only [schedStep, hs]
    exact hc

theorem sched_foldl_bad (tasks : List Task) (resources : List Resource) (mp : ℕ)
    (t : Task) (req : ResourceReq) (r : Resource)
    (hreq : req ∈ t.requiredResources) (hpos : 0 < req.amount)
    (hfind : resources.find? (fun x => x.id == req.resourceId) = some r)
    (hcap0 : r.maxCapacity = 0) (hdur : 1 ≤ t.duration)
    (hamt : ∀ tk ∈ tasks, ∀ rq ∈ tk.requiredResources, 0 ≤ rq.amount) :
    ∀ (L : List Task) (st : SchedState), (∀ tk ∈ L, tk ∈ tasks) →
      (∀ rid p, 0 ≤ utilAt st.util rid p) →
      (∀ e ∈ (L.foldl (schedStep resources mp) st).schedule,
        e ∈ st.schedule ∨ ∃ tk ∈ L, tk ≠ t ∧ e.taskId = tk.id) ∧
      (∀ c ∈ st.conflicts, c ∈ (L.foldl (schedStep resources mp) st).conflicts) ∧
      (t ∈ L → ("Cannot schedule task " ++ t.name ++ " - insufficient resources") ∈
        (L.foldl (schedStep resources mp) st).conflicts) := by
  intro L
  induction L with
  | nil =>
    intro st _ _
    exact ⟨fun e he => Or.inl he, fun c hc => hc, fun h => absurd h (List.not_mem_nil _)⟩
  | cons hd tl ih =>
    intro st hL hN
    simp only [List.foldl_cons]
    have hN1 : ∀ rid p, 0 ≤ utilAt (schedStep resources mp st hd).util rid p :=
      schedStep_util_nonneg resources mp st hd (hamt hd (hL hd (List.mem_cons_self _ _))) hN
    obtain ⟨ihA, ihC, ihB⟩ := ih (schedStep resources mp st hd)
      (fun tk htk => hL tk (List.mem_cons_of_mem _ htk)) hN1
    refine ⟨?_, ?_, ?_⟩
    · intro e he
      rcases ihA e he with h | ⟨tk, htk, hne, hid⟩
      · by_cases hht : hd = t
        · subst hht
          have hnone := scheduleTask_none_of_bad hd resources st.util
            (getEarliestStartTime hd st.schedule) mp req r hreq hpos hfind hcap0 hdur hN
          simp only [schedStep, hnone] at h
          exact Or.inl h
        · cases hs : scheduleTask hd resources st.util (getEarliestStartTime hd st.schedule)
              mp with
          | none =>
            simp only [schedStep, hs] at h
            exact Or.inl h
          | some pair =>
            obtain ⟨start, assigned⟩ := pair
            simp only [schedStep, hs] at h
            rcases List.mem_append.1 h with h1 | h1
            · exact Or.inl h1
            · right
              refine ⟨hd, List.mem_cons_self _ _, hht, ?_⟩
              simp only [List.mem_singleton] at h1
              rw [h1]
      · exact Or.inr ⟨tk, List.mem_cons_of_mem _ htk, hne, hid⟩
    · intro c hc
      exact ihC c (schedStep_conflicts_mono resources mp st hd c hc)
    · intro hmem
      by_cases hht : t = hd
      · subst hht
        have hnone := scheduleTask_none_of_bad t resources st.util
          (getEarliestStartTime t st.schedule) mp req r hreq hpos hfind hcap0 hdur hN
        apply ihC
        simp only [schedStep, hnone]
        exact List.mem_append_right _ (List.mem_singleton.2 rfl)
      · have htl : t ∈ tl := by
          rcases List.mem_cons.1 hmem with h | h
          · exact absurd h hht
          · exact h
        exact ihB htl

theorem optimize_zero_capacity_conflict (tasks : List Task) (resources : List Resource)
    (dl : Option ℕ) (t : Task) (req : ResourceReq) (r : Resource)
    (ht : t ∈ tasks) (hreq : req ∈ t.requiredResources) (hpos : 0 < req.amount)
    (hfind : resources.find? (fun x => x.id == req.resourceId) = some r)
    (hcap0 : r.maxCapacity = 0) (hdur : 1 ≤ t.duration)
    (hnd : (tasks.map Task.id).Nodup)
    (hamt : ∀ tk ∈ tasks, ∀ rq ∈ tk.requiredResources, 0 ≤ rq.amount) :
    (∀ e ∈ (optimizeResourceAllocation tasks resources dl).schedule, e.taskId ≠ t.id) ∧
    ("Cannot schedule task " ++ t.name ++ " - insufficient resources") ∈
      (optimizeResourceAllocation tasks resources dl).conflicts := by
  obtain ⟨hA, _, hB⟩ := sched_foldl_bad tasks resources (jsOrNat dl 100) t req r hreq hpos hfind
    hcap0 hdur hamt (topologicalSort tasks)
    { schedule := [], util := initUtil resources (jsOrNat dl 100), conflicts := [] }
    (topo_subset tasks) (by intro rid p; rw [utilAt_initUtil])
  constructor
  · intro e he hid
    rcases hA e he with h | ⟨tk, htk, hne, htkid⟩
    · exact absurd h (List.not_mem_nil _)
    · exact hne (task_id_inj tasks hnd tk t (topo_subset tasks tk htk) ht (htkid ▸ hid))
  · exact hB (topo_mem tasks t ht hnd)

/-! ## Scenario-analysis and IRR lemmas -/

theorem map_capacity_one (resources : List Resource) :
    resources.map (fun resource =>
      { resource with maxCapacity := resource.maxCapacity * (1 : ℚ) }) = resources := by
  induction resources with
  | nil => rfl
  | cons r rs ih =>
    simp only [List.map_cons, ih]
    congr 1
    cases r
    simp

theorem irrGo_converged (allCF : List ℚ) :
    ∀ (n : ℕ) (rate : ℚ), (irrGo allCF n rate).2 = true →
      |npvSum (irrGo allCF n rate).1 0 allCF| < 1 / 100 := by
  intro n
  induction n with
  | zero =>
    intro rate h
    simp [irrGo] at h
  | succ n ih =>
    intro rate h
    simp only [irrGo] at h ⊢
    by_cases h1 : |npvSum rate 0 allCF| < 1 / 100
    · simp only [if_pos h1] at h ⊢
      exact h1
    · simp only [if_neg h1] at h ⊢
      by_cases h2 : derivSum rate 0 allCF = 0
      · simp only [if_pos h2] at h
        exact Bool.noConfusion h
      · simp only [if_neg h2] at h ⊢
        exact ih _ h

theorem npvSum_shift (flows : List ℚ) (inv rate : ℚ) :
    npvSum rate 0 (-inv :: flows) = calculateNPV flows rate inv := by
  simp [npvSum, calculateNPV]

/-! ## Monte-Carlo lemmas -/

theorem mcValues_zero_const (base : ℚ) (iters : ℕ) (rand : ℕ → ℚ) :
    mcValues base ⟨0, 0, 0⟩ iters rand = List.replicate iters base := by
  unfold mcValues
  simp [mul_zero, add_zero, mul_one]

theorem jsSum_replicate (n : ℕ) (a : ℚ) : jsSum (List.replicate n a) = n * a := by
  have key : ∀ (n : ℕ) (init : ℚ), (List.replicate n a).foldl (· + ·) init = init + n * a := by
    intro n
    induction n with
    | zero => intro init; simp
    | succ n ih =>
      intro init
      rw [List.replicate_succ, List.foldl_cons, ih]
      push_cast
      ring
  rw [jsSum, key]
  ring

theorem insertionSort_replicate (n : ℕ) (a : ℚ) :
    List.insertionSort (fun x y => x ≤ y) (List.replicate n a) = List.replicate n a := by
  have hperm := List.perm_insertionSort (fun x y : ℚ => x ≤ y) (List.replicate n a)
  rw [List.eq_replicate_iff]
  constructor
  · rw [hperm.length_eq, List.length_replicate]
  · intro b hb
    exact List.eq_of_mem_replicate (hperm.subset hb)

theorem replicate_getD_of_lt {α : Type} (n p : ℕ) (a d : α) (h : p < n) :
    (List.replicate n a).getD p d = a := by
  rw [List.getD_eq_getElem _ _ (by simpa using h)]
  simp

theorem monteCarlo_zero_eq (base : ℚ) (iters : ℕ) (rand : ℕ → ℚ) (h : 1 ≤ iters) :
    monteCarloSimulation base ⟨0, 0, 0⟩ iters rand =
      { mean := base, standardDeviation := 0, p10 := base, p50 := base, p90 := base } := by
  have hmean : mcMean base ⟨0, 0, 0⟩ iters rand = base := by
    unfold mcMean
    rw [mcValues_zero_const, jsSum_replicate]
    have : (iters : ℚ) ≠ 0 := Nat.cast_ne_zero.2 (by omega)
    field_simp
  have hvar : mcVariance base ⟨0, 0, 0⟩ iters rand = 0 := by
    unfold mcVariance
    rw [hmean, mcValues_zero_const]
    have hmap : (List.replicate iters base).map (fun v => (v - base) ^ 2) =
        List.replicate iters 0 := by
      rw [List.map_replicate]
      simp
    show jsSum ((List.replicate iters base).map (fun v => (v - base) ^ 2)) / (iters : ℚ) = 0
    rw [hmap, jsSum_replicate]
    simp
  unfold monteCarloSimulation
  rw [mcValues_zero_const, insertionSort_replicate, hmean, hvar]
  have h10 : iters / 10 < iters := Nat.div_lt_self (by omega) (by omega)
  have h50 : iters / 2 < iters := Nat.div_lt_self (by omega) (by omega)
  have h90 : iters * 9 / 10 < iters := by
    rw [Nat.div_lt_iff_lt_mul (by omega)]
    omega
  show (⟨base, Real.sqrt ((0 : ℚ) : ℝ),
      (List.replicate iters base).getD (iters / 10) 0,
      (List.replicate iters base).getD (iters / 2) 0,
      (List.replicate iters base).getD (iters * 9 / 10) 0⟩ : MonteCarloResult) =
    ⟨base, 0, base, base, base⟩
  rw [replicate_getD_of_lt _ _ _ _ h10, replicate_getD_of_lt _ _ _ _ h50,
    replicate_getD_of_lt _ _ _ _ h90]
  simp

/-! ## Delphi lemmas -/

theorem jsSumR_eq_sum (l : List ℝ) : jsSumR l = l.sum := by
  have key : ∀ (l : List ℝ) (init : ℝ), l.foldl (· + ·) init = init + l.sum := by
    intro l
    induction l with
    | nil => intro init; simp
    | cons x t ih =>
      intro init
      rw [List.foldl_cons, ih, List.sum_cons]
      ring
  rw [jsSumR, key]
  ring

theorem all_zero_of_sum_zero_nonneg (l : List ℝ) (h0 : ∀ x ∈ l, 0 ≤ x) (hs : l.sum = 0) :
    ∀ x ∈ l, x = 0 := by
  induction l with
  | nil => intro x hx; exact absurd hx (List.not_mem_nil _)
  | cons a t ih =>
    rw [List.sum_cons] at hs
    have ha : 0 ≤ a := h0 a (List.mem_cons_self _ _)
    have ht : 0 ≤ t.sum := List.sum_nonneg (fun x hx => h0 x (List.mem_cons_of_mem _ hx))
    have ha0 : a = 0 := by linarith
    have hts : t.sum = 0 := by linarith
    intro x hx
    rcases List.mem_cons.1 hx with h | h
    · rw [h, ha0]
    · exact ih (fun y hy => h0 y (List.mem_cons_of_mem _ hy)) hts x h

/-! ## Regression lemmas -/

theorem calculateCorrelation_single (x y : ℝ) : calculateCorrelation [x] [y] = 0 := by
  simp [calculateCorrelation, jsSumR]

/-! ## Decision-tree fuel adequacy -/

theorem nodeDepth_pos (n : DecisionNode) : 1 ≤ nodeDepth n := by
  obtain ⟨i, nm, t, p, c, v, children⟩ := n
  simp [nodeDepth]

theorem nodeDepth_le_of_mem (c : DecisionNode) (l : List DecisionNode) (h : c ∈ l) :
    nodeDepth c ≤ nodeDepthList l := by
  induction l with
  | nil => exact absurd h (List.not_mem_nil _)
  | cons hd tl ih =>
    rcases List.mem_cons.1 h with h1 | h1
    · rw [h1]
      simp only [nodeDepthList]
      exact le_max_left _ _
    · simp only [nodeDepthList]
      exact le_trans (ih h1) (le_max_right _ _)

theorem jsReduceMaxProb_mem :
    ∀ (rest : List DecisionNode) (best : DecisionNode),
      jsReduceMaxProb best rest = best ∨ jsReduceMaxProb best rest ∈ rest := by
  intro rest
  induction rest with
  | nil => intro best; left; rfl
  | cons hd tl ih =>
    intro best
    simp only [jsReduceMaxProb]
    rcases ih (if best.probability.getD 0 < hd.probability.getD 0 then hd else best) with h | h
    · rw [h]
      by_cases hc : best.probability.getD 0 < hd.probability.getD 0
      · right
        simp only [if_pos hc]
        exact List.mem_cons_self _ _
      · left
        simp only [if_neg hc]
    · right
      exact List.mem_cons_of_mem _ h

theorem findBestPathFuel_adequate :
    ∀ (fuel : ℕ) (node : DecisionNode) (path : List String), nodeDepth node ≤ fuel →
      (findBestPathFuel fuel node path).isSome = true := by
  intro fuel
  induction fuel with
  | zero =>
    intro node path h
    have := nodeDepth_pos node
    omega
  | succ fuel ih =>
    intro node path h
    obtain ⟨nid, nm, ntype, prob, cost, value, children⟩ := node
    have hdl : nodeDepthList children ≤ fuel := by
      have he : nodeDepth (DecisionNode.mk nid nm ntype prob cost value children) =
          1 + nodeDepthList children := by simp [nodeDepth]
      omega
    simp only [findBestPathFuel]
    by_cases h1 : ntype = NodeType.outcome ∨ children.isEmpty
    · rw [if_pos h1]
      rfl
    · simp only [if_neg h1]
      by_cases h2 : ntype = NodeType.decision
      · simp only [if_pos h2]
        have hchildren : ∀ c ∈ children,
            (findBestPathFuel fuel c (path ++ [nm])).isSome = true := fun c hc =>
          ih c _ (le_trans (nodeDepth_le_of_mem c children hc) hdl)
        have hfold : ∀ (l : List DecisionNode),
            (∀ c ∈ l, (findBestPathFuel fuel c (path ++ [nm])).isSome = true) →
            (l.foldr
              (fun c acc =>
                match findBestPathFuel fuel c (path ++ [nm]), acc with
                | some (some p), some (some l2) =>
                  some (some (({ name := c.name, expectedValue := calcEV c,
                                 riskMetrics := calcRiskMetrics c, cpath := p } :
                    ChildAnalysis) :: l2))
                | none, _ => none
                | _, none => none
                | _, _ => some none)
              (some (some []))).isSome = true := by
          intro l
          induction l with
          | nil => intro _; rfl
          | cons c t iht =>
            intro hall
            simp only [List.foldr_cons]
            have hc := hall c (List.mem_cons_self _ _)
            have ht := iht (fun c2 hc2 => hall c2 (List.mem_cons_of_mem _ hc2))
            cases hcv : findBestPathFuel fuel c (path ++ [nm]) with
            | none =>
              rw [hcv] at hc
              exact absurd hc (by simp)
            | some o1 =>
              cases hacc : t.foldr
                  (fun c acc =>
                    match findBestPathFuel fuel c (path ++ [nm]), acc with
                    | some (some p), some (some l2) =>
                      some (some (({ name := c.name, expectedValue := calcEV c,
                                     riskMetrics := calcRiskMetrics c, cpath := p } :
                        ChildAnalysis) :: l2))
                    | none, _ => none
                    | _, none => none
                    | _, _ => some none)
                  (some (some [])) with
              | none =>
                rw [hacc] at ht
                exact absurd ht (by simp)
              | some a2 =>
                cases a2 with
                | none => cases o1 <;> rfl
                | some l2 => cases o1 <;> rfl
        obtain ⟨o, ho⟩ := Option.isSome_iff_exists.1 (hfold children hchildren)
        rw [ho]
        cases o with
        | none => rfl
        | some childAnalysis =>
          dsimp only
          cases List.insertionSort (fun a b => b.expectedValue ≤ a.expectedValue)
              childAnalysis with
          | nil => rfl
          | cons top rest2 =>
            cases rest2 with
            | nil => rfl
            | cons second rest3 => rfl
      · simp only [if_neg h2]
        cases children with
        | nil => simp
        | cons c rest =>
          have hdepth : nodeDepth (jsReduceMaxProb c rest) ≤ fuel := by
            rcases jsReduceMaxProb_mem rest c with h3 | h3
            · rw [h3]
              exact le_trans (nodeDepth_le_of_mem c _ (List.mem_cons_self _ _)) hdl
            · exact le_trans (nodeDepth_le_of_mem _ _ (List.mem_cons_of_mem _ h3)) hdl
          exact ih _ _ hdepth

/-! ## Rate-irrelevance of the scheduling phase -/

theorem find?_map_stripRate (resources : List Resource) (rid : String) :
    (resources.map stripRate).find? (fun x => x.id == rid) =
      (resources.find? (fun x => x.id == rid)).map stripRate := by
  induction resources with
  | nil => rfl
  | cons r rest ih =>
    by_cases h : (r.id == rid) = true
    · simp only [List.map_cons, List.find?, show (stripRate r).id = r.id from rfl, h]
      rfl
    · have hfalse : (r.id == rid) = false := by simpa using h
      simp only [List.map_cons, List.find?, show (stripRate r).id = r.id from rfl, hfalse]
      exact ih

theorem tryStartGo_stripRate (resources : List Resource) (util : List (String × List ℚ))
    (start dur : ℕ) :
    ∀ (reqs : List ResourceReq) (assigned : List (String × ℚ)),
      tryStartGo (resources.map stripRate) util start dur reqs assigned =
        tryStartGo resources util start dur reqs assigned := by
  intro reqs
  induction reqs with
  | nil => intro assigned; rfl
  | cons req rest ih =>
    intro assigned
    simp only [tryStartGo, find?_map_stripRate]
    cases hf : resources.find? (fun r => r.id == req.resourceId) with
    | none => rfl
    | some r =>
      simp only [Option.map_some']
      rw [ih]
      rfl

theorem findStart_stripRate (task : Task) (resources : List Resource)
    (util : List (String × List ℚ)) :
    ∀ (steps s : ℕ), findStart task (resources.map stripRate) util s steps =
      findStart task resources util s steps := by
  intro steps
  induction steps with
  | zero => intro s; rfl
  | succ steps ih =>
    intro s
    simp only [findStart, tryStart, tryStartGo_stripRate]
    cases htry : tryStartGo resources util s task.duration task.requiredResources [] with
    | some a => rfl
    | none => exact ih (s + 1)

theorem scheduleTask_stripRate (task : Task) (resources : List Resource)
    (util : List (String × List ℚ)) (es mp : ℕ) :
    scheduleTask task (resources.map stripRate) util es mp =
      scheduleTask task resources util es mp := by
  unfold scheduleTask
  rw [findStart_stripRate]

theorem schedStep_stripRate (resources : List Resource) (mp : ℕ) (st : SchedState)
    (task : Task) :
    schedStep (resources.map stripRate) mp st task = schedStep resources mp st task := by
  simp only [schedStep, scheduleTask_stripRate]

theorem initUtil_stripRate (resources : List Resource) (m : ℕ) :
    initUtil (resources.map stripRate) m = initUtil resources m := by
  unfold initUtil
  rw [List.foldl_map]
  rfl

theorem sched_state_stripRate (tasks : List Task) (resources : List Resource) (mp : ℕ) :
    ((topologicalSort tasks).foldl (schedStep (resources.map stripRate) mp)
      { schedule := [], util := initUtil (resources.map stripRate) mp, conflicts := [] }) =
    ((topologicalSort tasks).foldl (schedStep resources mp)
      { schedule := [], util := initUtil resources mp, conflicts := [] }) := by
  rw [initUtil_stripRate]
  have key : ∀ (L : List Task) (st : SchedState),
      L.foldl (schedStep (resources.map stripRate) mp) st = L.foldl (schedStep resources mp) st := by
    intro L
    induction L with
    | nil => intro st; rfl
    | cons hd tl ih =>
      intro st
      simp only [List.foldl_cons, schedStep_stripRate]
      exact ih _
  exact key _ _

theorem optimize_stripRate_sched (tasks : List Task) (resources : List Resource)
    (dl : Option ℕ) :
    (optimizeResourceAllocation tasks (resources.map stripRate) dl).schedule =
      (optimizeResourceAllocation tasks resources dl).schedule := by
  show ((topologicalSort tasks).foldl (schedStep (resources.map stripRate) (jsOrNat dl 100))
    { schedule := [], util := initUtil (resources.map stripRate) (jsOrNat dl 100),
      conflicts := [] }).schedule = _
  rw [sched_state_stripRate]
  rfl

theorem optimize_stripRate_conflicts (tasks : List Task) (resources : List Resource)
    (dl : Option ℕ) :
    (optimizeResourceAllocation tasks (resources.map stripRate) dl).conflicts =
      (optimizeResourceAllocation tasks resources dl).conflicts := by
  show ((topologicalSort tasks).foldl (schedStep (resources.map stripRate) (jsOrNat dl 100))
    { schedule := [], util := initUtil (resources.map stripRate) (jsOrNat dl 100),
      conflicts := [] }).conflicts = _
  rw [sched_state_stripRate]
  rfl

theorem optimize_totalCost_eq (tasks : List Task) (resources : List Resource) (dl : Option ℕ) :
    (optimizeResourceAllocation tasks resources dl).totalCost =
      totalCostOf resources (optimizeResourceAllocation tasks resources dl).schedule := rfl

/-! ## The claims -/

/-- C1: the claim says `analyzeDecisionTree` returns a result object and
never raises on well-formed trees, in particular on a decision node with
exactly one child.  The code contradicts this: at a decision node with one
child the best-path walk reads `expectedValue` of the `undefined` second
option and throws a `TypeError` (modelled as `none`), as this evaluation of
the embedding at such a tree shows. -/
theorem c1_analyzeDecisionTree_throws_on_one_child_decision :
    analyzeDecisionTree c1Root = none := by
  simp [analyzeDecisionTree, findBestPath, nodeDepth, nodeDepthList, c1Root, c1Outcome,
    findBestPathFuel, List.insertionSort, List.orderedInsert]

/-- C5: running `performScenarioAnalysis` with the single identity scenario
(`resourceMultiplier = 1.0`, no time constraint) returns exactly the result
of `optimizeResourceAllocation` on the same tasks and resources with no
deadline, component for component. -/
theorem c5_identity_scenario (tasks : List Task) (resources : List Resource) :
    (performScenarioAnalysis tasks resources
      [{ resourceMultiplier := 1, budgetConstraint := none, timeConstraint := none,
         qualityRequirement := none }]).map (fun outcome => outcome.result) =
      [optimizeResourceAllocation tasks resources none] := by
  unfold performScenarioAnalysis
  simp only [List.map_cons, List.map_nil, map_capacity_one]

/-- C6: for every finite task list — cyclic or dangling prerequisites
included — the DFS topological sort of `optimizeResourceAllocation`
terminates: the depth fuel `|ids| + 1` used by `topoRun` is never
exhausted (an id already on the `visiting` stack is skipped rather than
recursed into), so the fuel model's failure flag is never raised and a
`ScheduleResult` is always produced. -/
theorem c6_topological_sort_terminates (tasks : List Task) : (topoRun tasks).ok = true :=
  topoRun_ok tasks

/-- C7: whenever `calculateIRR`'s Newton-Raphson loop stops because
`|NPV| < 0.01` (the convergence flag of `irrRun`), the returned percentage
rate `r` satisfies `|calculateNPV(cashFlows, r/100, initialInvestment)| < 1`. -/
theorem c7_irr_npv_roundtrip (cashFlows : List ℚ) (initialInvestment : ℚ)
    (h : (irrRun cashFlows initialInvestment).2 = true) :
    |calculateNPV cashFlows (calculateIRR cashFlows initialInvestment / 100)
      initialInvestment| < 1 := by
  have key := irrGo_converged (-initialInvestment :: cashFlows) 100 (1 / 10) h
  have hrate : calculateIRR cashFlows initialInvestment / 100 =
      (irrRun cashFlows initialInvestment).1 := by
    unfold calculateIRR
    field_simp
  rw [hrate]
  have hnpv := npvSum_shift cashFlows initialInvestment (irrRun cashFlows initialInvestment).1
  rw [← hnpv]
  calc |npvSum (irrRun cashFlows initialInvestment).1 0 (-initialInvestment :: cashFlows)|
      < 1 / 100 := key
    _ < 1 := by norm_num

/-- Witness for C7 at the cash-flow stream `[110]` against investment 100:
the first Newton-Raphson iterate already has `NPV = 0`, so the loop stops
by convergence and the round-trip NPV is within tolerance 1. -/
theorem c7_irr_npv_roundtrip_witness :
    |calculateNPV [110] (calculateIRR [(110 : ℚ)] 100 / 100) 100| < 1 :=
  c7_irr_npv_roundtrip [110] 100 (by with_unfolding_all decide)

/-- C2 counterexample: the claim says the placement check bounds committed
utilization by `maxCapacity × availability[p mod len]` including periods
whose availability multiplier is `0`.  The source applies
`availability[...] || 1`, which turns a stored `0` multiplier into `1`:
with one resource of capacity 1 whose availability is constantly `0` and a
task requesting amount 1 for one period, the task is scheduled and the
committed utilization `1` exceeds `maxCapacity × availability[0] = 0`. -/
theorem c2_availability_zero_counterexample :
    ¬ (utilAt (optimizeResourceAllocation [c2Task] [c2Resource] none).resourceUtilization
        "r" 0 ≤
      c2Resource.maxCapacity *
        (c2Resource.availability.getD (0 % c2Resource.availability.length) 0)) := by
  with_unfolding_all decide

/-- C2 as amended: with the data-model hypotheses (capacities and
availability multipliers non-negative), every committed per-period amount
in the returned `resourceUtilization` is bounded by
`maxCapacity × effAvail`, where `effAvail` is the multiplier the source
actually applies — `availability[p mod len] || 1`, i.e. a stored `0` (or an
empty availability array) falls back to `1`. -/
theorem c2_utilization_bounded (tasks : List Task) (resources : List Resource)
    (dl : Option ℕ)
    (hcap : ∀ r ∈ resources, 0 ≤ r.maxCapacity)
    (havail : ∀ r ∈ resources, ∀ a ∈ r.availability, 0 ≤ a)
    (rid : String) (r : Resource) (p : ℕ)
    (hfind : resources.find? (fun x => x.id == rid) = some r) :
    utilAt (optimizeResourceAllocation tasks resources dl).resourceUtilization rid p ≤
      r.maxCapacity * effAvail r p :=
  optimize_util_bound tasks resources dl hcap havail rid r p hfind

/-- Witness for C2 on the availability-zero instance: the committed amount
1 at period 0 is within the effective bound `1 × effAvail = 1`. -/
theorem c2_utilization_bounded_witness :
    utilAt (optimizeResourceAllocation [c2Task] [c2Resource] none).resourceUtilization "r" 0 ≤
      c2Resource.maxCapacity * effAvail c2Resource 0 :=
  c2_utilization_bounded [c2Task] [c2Resource] none
    (by intro r hr; simp [c2Resource] at hr; rw [hr]; norm_num [c2Resource])
    (by
      intro r hr a ha
      simp [c2Resource] at hr
      rw [hr] at ha
      simp [c2Resource] at ha
      rw [ha])
    "r" c2Resource 0 (by with_unfolding_all decide)

set_option maxRecDepth 8192 in
/-- C3: on the two-task instance (B depends on A, one capacity-1 fully
available resource, both tasks need amount 1 for 2 periods, any hourly
rate) the scheduler places A at periods [0,2) and B at [2,4) — so B starts
exactly at A's end period — with total cost
`1·rate·2 + 1·rate·2` and no conflicts. -/
theorem c3_two_task_schedule (rate : ℚ) :
    (optimizeResourceAllocation [c3TaskA, c3TaskB] [c3Resource rate] none).schedule =
      [{ taskId := "A", startPeriod := 0, endPeriod := 2, assignedResources := [("r", 1)] },
       { taskId := "B", startPeriod := 2, endPeriod := 4, assignedResources := [("r", 1)] }] ∧
    (optimizeResourceAllocation [c3TaskA, c3TaskB] [c3Resource rate] none).totalCost =
      1 * rate * 2 + 1 * rate * 2 ∧
    (optimizeResourceAllocation [c3TaskA, c3TaskB] [c3Resource rate] none).conflicts = [] := by
  have hmap : [c3Resource rate].map stripRate = [c3Resource 0] := rfl
  have hsched : (optimizeResourceAllocation [c3TaskA, c3TaskB] [c3Resource rate] none).schedule =
      [{ taskId := "A", startPeriod := 0, endPeriod := 2, assignedResources := [("r", 1)] },
       { taskId := "B", startPeriod := 2, endPeriod := 4, assignedResources := [("r", 1)] }] := by
    rw [← optimize_stripRate_sched, hmap]
    with_unfolding_all decide
  have hconf : (optimizeResourceAllocation [c3TaskA, c3TaskB] [c3Resource rate] none).conflicts =
      [] := by
    rw [← optimize_stripRate_conflicts, hmap]
    with_unfolding_all decide
  refine ⟨hsched, ?_, hconf⟩
  rw [optimize_totalCost_eq, hsched]
  simp only [totalCostOf, List.foldl_cons, List.foldl_nil, List.find?]
  norm_num [c3Resource]

/-- C4 counterexample: the claim quantifies over every task requiring a
positive amount of a capacity-0 resource, but a task of duration 0 has an
empty per-period check, is scheduled at period 0 and produces no
conflict. -/
theorem c4_zero_duration_scheduled :
    (optimizeResourceAllocation [c4ZeroDurTask] [c4Resource] none).schedule =
      [{ taskId := "t", startPeriod := 0, endPeriod := 0, assignedResources := [("r", 1)] }] ∧
    (optimizeResourceAllocation [c4ZeroDurTask] [c4Resource] none).conflicts = [] := by
  with_unfolding_all decide

/-- C4 as amended: every task of duration ≥ 1 that requires a positive
amount of a resource whose `maxCapacity` is 0 is left out of the returned
schedule and a `Cannot schedule` conflict is recorded for it, while the run
completes and still returns a `ScheduleResult` (hypotheses: unique task
ids and non-negative requirement amounts, per the data model). -/
theorem c4_zero_capacity_unscheduled (tasks : List Task) (resources : List Resource)
    (dl : Option ℕ) (t : Task) (req : ResourceReq) (r : Resource)
    (ht : t ∈ tasks) (hreq : req ∈ t.requiredResources) (hpos : 0 < req.amount)
    (hfind : resources.find? (fun x => x.id == req.resourceId) = some r)
    (hcap0 : r.maxCapacity = 0) (hdur : 1 ≤ t.duration)
    (hnd : (tasks.map Task.id).Nodup)
    (hamt : ∀ tk ∈ tasks, ∀ rq ∈ tk.requiredResources, 0 ≤ rq.amount) :
    (∀ e ∈ (optimizeResourceAllocation tasks resources dl).schedule, e.taskId ≠ t.id) ∧
    ("Cannot schedule task " ++ t.name ++ " - insufficient resources") ∈
      (optimizeResourceAllocation tasks resources dl).conflicts :=
  optimize_zero_capacity_conflict tasks resources dl t req r ht hreq hpos hfind hcap0 hdur
    hnd hamt

/-- Witness for C4 on the one-period task demanding one unit of the
capacity-0 resource. -/
theorem c4_zero_capacity_unscheduled_witness :
    (∀ e ∈ (optimizeResourceAllocation [c4Task] [c4Resource] none).schedule,
      e.taskId ≠ c4Task.id) ∧
    ("Cannot schedule task " ++ c4Task.name ++ " - insufficient resources") ∈
      (optimizeResourceAllocation [c4Task] [c4Resource] none).conflicts :=
  c4_zero_capacity_unscheduled [c4Task] [c4Resource] none c4Task
    { resourceId := "r", amount := 1 } c4Resource
    (by simp) (by with_unfolding_all decide) (by norm_num)
    (by with_unfolding_all decide) rfl (by norm_num [c4Task])
    (by simp [c4Task]) (by
      intro tk htk rq hrq
      simp [c4Task] at htk
      rw [htk] at hrq
      simp [c4Task] at hrq
      rw [hrq]
      norm_num)

/-- C8: with all three risk factors 0 every simulated value equals the
base value, the mean is the base value, the standard deviation is 0, all
three percentiles equal the base value, and the result is independent of
the random source (any two runs agree). -/
theorem c8_monte_carlo_zero_risk (base : ℚ) (iters : ℕ) (rand rand2 : ℕ → ℚ)
    (h : 1 ≤ iters) :
    (∀ v ∈ mcValues base ⟨0, 0, 0⟩ iters rand, v = base) ∧
    (monteCarloSimulation base ⟨0, 0, 0⟩ iters rand).mean = base ∧
    (monteCarloSimulation base ⟨0, 0, 0⟩ iters rand).standardDeviation = 0 ∧
    (monteCarloSimulation base ⟨0, 0, 0⟩ iters rand).p10 = base ∧
    (monteCarloSimulation base ⟨0, 0, 0⟩ iters rand).p50 = base ∧
    (monteCarloSimulation base ⟨0, 0, 0⟩ iters rand).p90 = base ∧
    monteCarloSimulation base ⟨0, 0, 0⟩ iters rand =
      monteCarloSimulation base ⟨0, 0, 0⟩ iters rand2 := by
  have h1 := monteCarlo_zero_eq base iters rand h
  have h2 := monteCarlo_zero_eq base iters rand2 h
  refine ⟨?_, ?_, ?_, ?_, ?_, ?_, ?_⟩
  · intro v hv
    rw [mcValues_zero_const] at hv
    exact List.eq_of_mem_replicate hv
  · rw [h1]
  · rw [h1]
  · rw [h1]
  · rw [h1]
  · rw [h1]
  · rw [h1, h2]

/-- Witness for C8 at base value 5 with two iterations and two different
random sources. -/
theorem c8_monte_carlo_zero_risk_witness :
    (∀ v ∈ mcValues 5 ⟨0, 0, 0⟩ 2 (fun _ => 0), v = 5) ∧
    (monteCarloSimulation 5 ⟨0, 0, 0⟩ 2 (fun _ => 0)).mean = 5 ∧
    (monteCarloSimulation 5 ⟨0, 0, 0⟩ 2 (fun _ => 0)).standardDeviation = 0 ∧
    (monteCarloSimulation 5 ⟨0, 0, 0⟩ 2 (fun _ => 0)).p10 = 5 ∧
    (monteCarloSimulation 5 ⟨0, 0, 0⟩ 2 (fun _ => 0)).p50 = 5 ∧
    (monteCarloSimulation 5 ⟨0, 0, 0⟩ 2 (fun _ => 0)).p90 = 5 ∧
    monteCarloSimulation 5 ⟨0, 0, 0⟩ 2 (fun _ => 0) =
      monteCarloSimulation 5 ⟨0, 0, 0⟩ 2 (fun _ => 1) :=
  c8_monte_carlo_zero_risk 5 2 (fun _ => 0) (fun _ => 1) (by decide)

/-- C9 counterexample: the claim says a single historical project makes
`calculateRegressionEstimation` return zero/neutral values for all four
outputs.  On a new project identical to the single historical one, the
estimated cost equals that project's actual cost (100000), not zero. -/
theorem c9_single_project_not_neutral :
    (calculateRegressionEstimation [c9Hist] c9New).estimatedCost = 100000 ∧
    (100000 : ℝ) ≠ 0 := by
  constructor
  · have hsim : similarityOf c9Hist c9New = 1 := by
      norm_num [similarityOf, c9Hist, c9New]
    unfold calculateRegressionEstimation
    rw [if_neg (by simp)]
    simp only [List.map_cons, List.map_nil, hsim, jsMaxR, List.foldl_nil, List.findIdx_cons,
      c9Hist, c9New]
    norm_num [List.findIdx_nil, Real.one_rpow]
  · norm_num

/-- C9 as amended: with exactly one historical project
`calculateRegressionEstimation` completes (total function) and returns a
neutral `rSquared = 0` (single-point correlations hit the zero-denominator
guard), while cost, duration and confidence are derived from that single
project rather than being zero. -/
theorem c9_single_project_rSquared_zero (hp : HistoricalProject) (np : NewProjectShape) :
    (calculateRegressionEstimation [hp] np).rSquared = 0 := by
  unfold calculateRegressionEstimation
  rw [if_neg (by simp)]
  simp only [List.map_cons, List.map_nil, calculateCorrelation_single]
  norm_num [jsMaxR]

/-- C10: on a non-empty estimate list whose confidences (all in `[0,1]`,
hence non-negative) sum to 0, the unguarded division by the total
confidence is `0 / 0`, so `finalEstimate` and `confidenceWeightedAverage`
are both `NaN`; no error is raised (the function is total). -/
theorem c10_delphi_nan_on_zero_confidence (estimates : List ExpertEstimate)
    (hne : estimates ≠ [])
    (hnn : ∀ e ∈ estimates, 0 ≤ e.confidence)
    (hsum : jsSumR (estimates.map (fun e => e.confidence)) = 0) :
    (calculateDelphiEstimation estimates).finalEstimate = JsNum.nan ∧
    (calculateDelphiEstimation estimates).confidenceWeightedAverage = JsNum.nan := by
  have hzero : ∀ e ∈ estimates, e.confidence = 0 := by
    intro e he
    have hall := all_zero_of_sum_zero_nonneg (estimates.map (fun e => e.confidence))
      (by
        intro x hx
        rcases List.mem_map.1 hx with ⟨e2, he2, hx2⟩
        rw [← hx2]
        exact hnn e2 he2)
      (by rw [← jsSumR_eq_sum]; exact hsum)
    exact hall _ (List.mem_map_of_mem _ he)
  have hnum : jsSumR (estimates.map (fun e => pertOf e * e.confidence)) = 0 := by
    rw [jsSumR_eq_sum]
    apply List.sum_eq_zero
    intro x hx
    rcases List.mem_map.1 hx with ⟨e2, he2, hx2⟩
    rw [← hx2, hzero e2 he2, mul_zero]
  unfold calculateDelphiEstimation
  rw [if_neg (by simpa using hne)]
  simp only [hnum, hsum]
  constructor <;> simp [jsDiv]

/-- Witness for C10 on a single zero-confidence expert estimate. -/
theorem c10_delphi_nan_witness :
    (calculateDelphiEstimation [c10Estimate]).finalEstimate = JsNum.nan ∧
    (calculateDelphiEstimation [c10Estimate]).confidenceWeightedAverage = JsNum.nan :=
  c10_delphi_nan_on_zero_confidence [c10Estimate] (by simp)
    (by
      intro e he
      simp at he
      rw [he]
      norm_num [c10Estimate])
    (by norm_num [jsSumR, c10Estimate])

end EconTool
